import Mathlib

/-!
# The ETL pipeline: identity mapper, persistence, title and genre parsing

A shallow embedding of the `IDMapper` type and of the persistence routines
`SaveItemMap` / `SaveUserMap` (`internal/mappers/id_mapper.go`), of the
persistence step of `main` (`main.go`), and of `parseTitleAndYear` and
`processMovies` (`convert_to_mongo_json.go`).

Modelling conventions.

* A Go `map[int]int` is an association list `List (Int × Int)`.  The order of
  the list stands for the (unspecified) iteration order of the map.  A Go map
  holds every key once; that is the predicate `GoMap.WF`.  The operations do
  not need it, the theorems that count entries assume it.
* Go `int` values are `Int`.  The mapper is given twice.  `NewIDMapper`,
  `IDMapper.GetOrCreate`, `call` and `run` count exactly; they serve the
  statements that no run can bring to the 64-bit bound.  `Go64.NewIDMapper`,
  `Go64.GetOrCreate`, `Go64.call` and `Go64.run` compute `maxIdx + 1` and
  `nextIdx++` as the 64-bit code does, with wrap-around; the statements on the
  watermark are about these.  The two agree as long as the exact watermark does
  not exceed the largest `int` (`go64_run_new_eq`).
* The mutex `mu` guards every method.  The methods are first modelled for one
  caller at a time: a method is a function from the state before the call to
  the returned value and the state after it.  The section on concurrent callers
  splits `GetOrCreate` into its two lock-protected sections and interleaves
  them.
* Library routines (`strconv`, `strings`, `regexp`, `sort`) are modelled by
  what their documentation says of them; the wall clock is a parameter.
-/

namespace Mappers

/-- A Go `map[int]int`: key/value entries in iteration order. -/
abbrev GoMap := List (Int × Int)

namespace GoMap

/-- The keys of the map, in iteration order. -/
def keys (m : GoMap) : List Int := m.map Prod.fst

/-- The values (indices) of the map, in iteration order. -/
def values (m : GoMap) : List Int := m.map Prod.snd

/-- Well-formedness of a Go map: no key occurs twice. -/
def WF (m : GoMap) : Prop := m.keys.Nodup

/-- The comma-ok read `idx, ok := m[id]`: `some idx` when `ok`. -/
def lookup : GoMap → Int → Option Int
  | [], _ => none
  | (k, v) :: rest, id => if k = id then some v else lookup rest id

/-- The assignment `m[id] = idx`: overwrite the entry of `id`, or add one. -/
def set : GoMap → Int → Int → GoMap
  | [], id, idx => [(id, idx)]
  | (k, v) :: rest, id, idx =>
    if k = id then (k, idx) :: rest else (k, v) :: set rest id idx

/-- The builtin `len(m)`. -/
def len (m : GoMap) : Int := (m.length : Int)

end GoMap

/-- The struct `IDMapper` (the mutex is not part of the sequential state). -/
structure IDMapper where
  mapping : GoMap
  nextIdx : Int
  changed : Bool
  deriving DecidableEq, Repr

/-- The loop of `NewIDMapper`: `if idx > maxIdx { maxIdx = idx }` over the
entries, continuing from the current `maxIdx`. -/
def maxIdxLoop : GoMap → Int → Int
  | [], maxIdx => maxIdx
  | (_, idx) :: rest, maxIdx =>
    if idx > maxIdx then maxIdxLoop rest idx else maxIdxLoop rest maxIdx

/-- The constructor `NewIDMapper(initialMap)`, counting exactly: `maxIdx + 1` is
the integer sum.  `Go64.NewIDMapper` is the constructor with the 64-bit sum. -/
def NewIDMapper (initialMap : GoMap) : IDMapper :=
  let maxIdx := maxIdxLoop initialMap (-1)
  { mapping := initialMap, nextIdx := maxIdx + 1, changed := false }

namespace IDMapper

/-- The method `(*IDMapper).Get`: the mapped index, or `-1`. -/
def Get (m : IDMapper) (id : Int) : Int :=
  match m.mapping.lookup id with
  | some idx => idx
  | none => -1

/-- The method `(*IDMapper).GetOrCreate`, counting exactly (`m.nextIdx++` is the
integer successor; `Go64.GetOrCreate` has the 64-bit increment): the returned
index and the state afterwards.  The first match is the read under the read
lock, the second the re-check under the write lock. -/
def GetOrCreate (m : IDMapper) (id : Int) : Int × IDMapper :=
  match m.mapping.lookup id with
  | some idx => (idx, m)
  | none =>
    match m.mapping.lookup id with
    | some idx => (idx, m)
    | none =>
      let idx := m.nextIdx
      (idx, { mapping := m.mapping.set id idx, nextIdx := m.nextIdx + 1, changed := true })

/-- The method `(*IDMapper).HasChanged`. -/
def HasChanged (m : IDMapper) : Bool := m.changed

/-- The copy loop of `GetMapping`: `copy[k] = v` for every entry. -/
def copyLoop : GoMap → GoMap → GoMap
  | [], copy => copy
  | (k, v) :: rest, copy => copyLoop rest (copy.set k v)

/-- The method `(*IDMapper).GetMapping`: a fresh copy of the map. -/
def GetMapping (m : IDMapper) : GoMap := copyLoop m.mapping []

/-- The method `(*IDMapper).Count`. -/
def Count (m : IDMapper) : Int := m.mapping.len

end IDMapper

/-- A call of one of the five methods of `IDMapper`. -/
inductive Call where
  | get (id : Int)
  | getOrCreate (id : Int)
  | hasChanged
  | getMapping
  | count
  deriving DecidableEq, Repr

/-- What a method call hands back to the caller. -/
inductive Ret where
  | int (n : Int)
  | bool (b : Bool)
  | map (m : GoMap)
  deriving DecidableEq, Repr

/-- One method call on a mapper: the returned value and the state afterwards. -/
def call (m : IDMapper) : Call → Ret × IDMapper
  | .get id => (.int (m.Get id), m)
  | .getOrCreate id => (.int (m.GetOrCreate id).1, (m.GetOrCreate id).2)
  | .hasChanged => (.bool m.HasChanged, m)
  | .getMapping => (.map m.GetMapping, m)
  | .count => (.int m.Count, m)

/-- The state after a sequence of method calls, made one after the other. -/
def run (m : IDMapper) : List Call → IDMapper
  | [] => m
  | c :: cs => run (call m c).2 cs

/-- Every index held by the mapper lies below the watermark `nextIdx`. -/
def Bounded (s : IDMapper) : Prop := ∀ p ∈ s.mapping, p.2 < s.nextIdx

/-- No two ids of the map are mapped to the same index. -/
def OneToOne (m : GoMap) : Prop :=
  ∀ id₁ id₂ idx, m.lookup id₁ = some idx → m.lookup id₂ = some idx → id₁ = id₂

/-- The string `strconv.Itoa(n)`: the decimal digits of `n`, after a minus
sign when `n` is negative. -/
def Itoa (n : Int) : String := toString n

/-- The contract of the call `sort.Slice(items, less)` made by `SaveItemMap`
and `SaveUserMap`, where `less(i, j)` compares the index fields with `<`: the
slice is rearranged in place (a permutation) and afterwards no entry is followed
by one that is less.  `sort.Slice` is not stable: nothing more is promised. -/
def SortsByIdx (srt : List (Int × Int) → List (Int × Int)) : Prop :=
  ∀ items, (srt items).Perm items ∧ (srt items).Pairwise (fun a b => ¬ b.2 < a.2)

/-- A sorting routine that meets `SortsByIdx`: insertion sort on the index
field. -/
def sortSliceByIdx (items : List (Int × Int)) : List (Int × Int) :=
  items.insertionSort (fun a b => a.2 ≤ b.2)

/-- The loop `for id, idx := range m { items = append(items, kv{id, idx}) }`. -/
def collect : GoMap → List (Int × Int) → List (Int × Int)
  | [], items => items
  | (id, idx) :: rest, items => collect rest (items ++ [(id, idx)])

/-- The record `[]string{strconv.Itoa(item.id), strconv.Itoa(item.idx)}`. -/
def record (item : Int × Int) : List String := [Itoa item.1, Itoa item.2]

/-- The function `SaveItemMap(path, itemMap)` on the path where no file operation fails:
the records handed to the CSV writer, in order.  `srt` is `sort.Slice` with
the comparison `items[i].iIdx < items[j].iIdx`. -/
def SaveItemMap (srt : List (Int × Int) → List (Int × Int)) (itemMap : GoMap) :
    List (List String) :=
  let items := collect itemMap []
  let items := srt items
  ["movieId", "iIdx"] :: items.map record

/-- The function `SaveUserMap(path, userMap)` on the path where no file operation fails:
the records handed to the CSV writer, in order.  `srt` is `sort.Slice` with
the comparison `users[i].uIdx < users[j].uIdx`. -/
def SaveUserMap (srt : List (Int × Int) → List (Int × Int)) (userMap : GoMap) :
    List (List String) :=
  let users := collect userMap []
  let users := srt users
  ["userId", "uIdx"] :: users.map record

end Mappers

/-! ## Decimal parsing (`strconv.Atoi`) and reloading of a saved mapping -/

namespace Strconv

/-- The largest value of a Go `int` (64-bit platform). -/
def maxInt : Int := 9223372036854775807

/-- The smallest value of a Go `int` (64-bit platform). -/
def minInt : Int := -9223372036854775808

/-- The values of the Go type `int`. -/
def InRange (n : Int) : Prop := minInt ≤ n ∧ n ≤ maxInt

/-- The value of a decimal digit `'0'..'9'`; `none` for any other character. -/
def digitValue (c : Char) : Option Nat :=
  if c.isDigit then some (c.toNat - 48) else none

/-- The number written by a run of decimal digits, continuing from `acc`;
`none` when a character is not a digit. -/
def parseDigits : List Char → Nat → Option Nat
  | [], acc => some acc
  | c :: cs, acc =>
    match digitValue c with
    | some d => parseDigits cs (acc * 10 + d)
    | none => none

/-- The base-10 syntax accepted by `strconv.Atoi`: an optional sign `+` or
`-`, then one or more decimal digits.  `none` is a syntax error. -/
def parseSigned (cs : List Char) : Option Int :=
  match cs with
  | [] => none
  | c :: ds =>
    if c = '-' then
      (if ds = [] then none else (parseDigits ds 0).map (fun (n : Nat) => -(n : Int)))
    else if c = '+' then
      (if ds = [] then none else (parseDigits ds 0).map (fun (n : Nat) => (n : Int)))
    else (parseDigits (c :: ds) 0).map (fun (n : Nat) => (n : Int))

/-- The pair `strconv.Atoi(s)`: the value and whether `err == nil`.  A syntax
error gives the value `0`; a number outside the `int` range gives the nearest
bound of the range, with an error. -/
def Atoi (s : String) : Int × Bool :=
  match parseSigned s.data with
  | none => (0, false)
  | some n =>
    if n > maxInt then (maxInt, false)
    else if n < minInt then (minInt, false)
    else (n, true)

end Strconv

namespace Mappers

/-- Modelled from the spec: the loader of a persisted mapping
(`loaders.LoadItemMap`, `loaders.LoadUserMap`) is not among the sources.  The
data rows of the two-column table are read in order; a row with two fields
that both parse as integers sets `m[id] = idx`, any other row is skipped. -/
def loadRows : List (List String) → GoMap → GoMap
  | [], m => m
  | [a, b] :: rest, m =>
    match Strconv.Atoi a, Strconv.Atoi b with
    | (id, true), (idx, true) => loadRows rest (m.set id idx)
    | _, _ => loadRows rest m
  | _ :: rest, m => loadRows rest m

/-- Modelled from the spec: `loaders.LoadItemMap` on the records of the table;
the header record is skipped, the rest goes through `loadRows`. -/
def LoadItemMap (table : List (List String)) : GoMap := loadRows table.tail []

/-- Modelled from the spec: `loaders.LoadUserMap`, the same reader on the
user table. -/
def LoadUserMap (table : List (List String)) : GoMap := loadRows table.tail []

/-- The files a run of `main` writes in its persistence step (`main.go`,
`if *updateMappings { ... }`): the records of `item_map.csv` and of
`user_map.csv`, `none` for a file that is not written. -/
structure Persisted where
  itemMapCsv : Option (List (List String))
  userMapCsv : Option (List (List String))
  deriving DecidableEq, Repr

/-- The persistence step of `main`: under `*updateMappings`, `SaveItemMap` is
called on `itemMapper.GetMapping()` when `itemMapper.HasChanged()`, and
`SaveUserMap` on `userMapper.GetMapping()` when `userMapper.HasChanged()`. -/
def persistMappings (srt : List (Int × Int) → List (Int × Int)) (updateMappings : Bool)
    (itemMapper userMapper : IDMapper) : Persisted :=
  if updateMappings then
    { itemMapCsv :=
        if itemMapper.HasChanged then some (SaveItemMap srt itemMapper.GetMapping) else none
      userMapCsv :=
        if userMapper.HasChanged then some (SaveUserMap srt userMapper.GetMapping) else none }
  else
    { itemMapCsv := none, userMapCsv := none }

end Mappers

/-! ## Strings: `strings.TrimSpace`, `strings.LastIndex`, `strings.Split`, the pattern `yearRe`

A Go string is modelled by a `String`, read as its sequence of characters
(valid UTF-8 text).  An index into a string counts characters; for the
one-byte character `(` that `LastIndex` looks for, a character index cuts the
string at the same place as the byte index of the source, and one is positive
exactly when the other is. -/

namespace Strings

/-- The predicate `unicode.IsSpace`: the white space that `TrimSpace` removes. -/
def isSpace (c : Char) : Bool :=
  (9 ≤ c.toNat && c.toNat ≤ 13) || c.toNat == 32 || c.toNat == 0x85 || c.toNat == 0xA0
    || c.toNat == 0x1680 || (0x2000 ≤ c.toNat && c.toNat ≤ 0x200A)
    || c.toNat == 0x2028 || c.toNat == 0x2029 || c.toNat == 0x202F
    || c.toNat == 0x205F || c.toNat == 0x3000

/-- The characters of `strings.TrimSpace(s)`: leading white space dropped, then
trailing white space dropped. -/
def trimSpaceChars (l : List Char) : List Char :=
  (l.dropWhile isSpace).rdropWhile isSpace

/-- The string `strings.TrimSpace(s)`. -/
def TrimSpace (s : String) : String := String.mk (trimSpaceChars s.data)

/-- The index of the last occurrence of the character `c` in `l`, or `-1`. -/
def lastIndexChars (c : Char) : List Char → Int
  | [] => -1
  | x :: xs =>
    if lastIndexChars c xs ≥ 0 then lastIndexChars c xs + 1
    else if x = c then 0 else -1

/-- The index `strings.LastIndex(s, substr)` for a one-character `substr`. -/
def LastIndex (s : String) (substr : Char) : Int := lastIndexChars substr s.data

/-- The slice `s[:idx]`. -/
def sliceTo (s : String) (idx : Int) : String := String.mk (s.data.take idx.toNat)

/-- The pieces of `l` between the occurrences of `sep`; always at least one
piece. -/
def splitChars (sep : Char) : List Char → List (List Char)
  | [] => [[]]
  | c :: cs =>
    if c = sep then [] :: splitChars sep cs
    else
      match splitChars sep cs with
      | [] => [[c]]
      | t :: ts => (c :: t) :: ts

/-- The slice `strings.Split(s, sep)` for a one-character `sep`. -/
def Split (s : String) (sep : Char) : List String := (splitChars sep s.data).map String.mk

end Strings

namespace YearRe

/-- The class `\d` of the pattern: an ASCII decimal digit. -/
def isReDigit (c : Char) : Bool := c.isDigit

/-- The class `\s` of the pattern: tab, newline, form feed, carriage return,
space. -/
def isReSpace (c : Char) : Bool :=
  c.toNat == 9 || c.toNat == 10 || c.toNat == 12 || c.toNat == 13 || c.toNat == 32

/-- A match of `\((\d{4})\)\s*$` that starts at the first character of `l`:
the text of capture group 1. -/
def matchHere : List Char → Option (List Char)
  | c₀ :: a :: b :: c :: d :: c₅ :: rest =>
    if c₀ = '(' ∧ isReDigit a = true ∧ isReDigit b = true ∧ isReDigit c = true
        ∧ isReDigit d = true ∧ c₅ = ')' ∧ rest.all isReSpace = true
    then some [a, b, c, d] else none
  | _ => none

/-- The leftmost match of the pattern in `l`: the matched text and the text of
capture group 1. -/
def find : List Char → Option (List Char × List Char)
  | [] => none
  | c :: cs =>
    match matchHere (c :: cs) with
    | some g => some (c :: cs, g)
    | none => find cs

/-- The slice `yearRe.FindStringSubmatch(s)` for
`yearRe = regexp.MustCompile("\((\d{4})\)\s*$")`: empty when there is no match,
else the matched text followed by the text of the capture group. -/
def FindStringSubmatch (s : String) : List String :=
  match find s.data with
  | some (whole, g) => [String.mk whole, String.mk g]
  | none => []

end YearRe

/-! ## The converter `convert_to_mongo_json.go` (and `parseTitleAndYear` of `main.go`) -/

namespace Main

/-- The function `parseTitleAndYear(raw)`: the title and the year (`none` for
the nil pointer). -/
def parseTitleAndYear (raw : String) : String × Option Int :=
  let raw := Strings.TrimSpace raw
  match YearRe.FindStringSubmatch raw with
  | [_, g] =>
    match Strconv.Atoi g with
    | (y, true) =>
      let idx := Strings.LastIndex raw '('
      if idx > 0 then (Strings.TrimSpace (Strings.sliceTo raw idx), some y)
      else (Strings.TrimSpace raw, some y)
    | (_, false) => (raw, none)
  | _ => (raw, none)

/-- The struct `MovieDoc`. -/
structure MovieDoc where
  MovieID : Int
  Title : String
  Year : Option Int
  Genres : List String
  CreatedAt : String
  deriving DecidableEq, Repr

/-- A Go `map[string]int` holding column positions. -/
abbrev StrMap := List (String × Nat)

/-- The comma-ok read `v, ok := idx[name]`; `v` is `0` when `ok` is false. -/
def StrMap.commaOk : StrMap → String → Nat × Bool
  | [], _ => (0, false)
  | (k, v) :: rest, name => if k = name then (v, true) else StrMap.commaOk rest name

/-- The assignment `idx[name] = i`. -/
def StrMap.set : StrMap → String → Nat → StrMap
  | [], name, i => [(name, i)]
  | (k, v) :: rest, name, i =>
    if k = name then (k, i) :: rest else (k, v) :: StrMap.set rest name i

/-- The loop `for i, h := range header { idx[h] = i }`, from position `i` on. -/
def buildIdx : List String → Nat → StrMap → StrMap
  | [], _, idx => idx
  | h :: rest, i, idx => buildIdx rest (i + 1) (idx.set h i)

/-- The element `row[i]` of a record; `none` stands for the run-time failure
"index out of range". -/
def index (row : List String) (i : Nat) : Option String := row[i]?

/-- The movie id of a record: by the `movieId` column when the header names it
inside the record, else the first field, else `0`; a parse error is dropped
(`mid, _ = strconv.Atoi(...)`). -/
def readMovieId (idx : StrMap) (row : List String) : Option Int :=
  if (idx.commaOk "movieId").2 && (idx.commaOk "movieId").1 < row.length then
    (index row (idx.commaOk "movieId").1).map (fun f => (Strconv.Atoi f).1)
  else if row.length > 0 then
    (index row 0).map (fun f => (Strconv.Atoi f).1)
  else some 0

/-- The raw title of a record: by the `title` column, else the second field,
else the empty string. -/
def readTitle (idx : StrMap) (row : List String) : Option String :=
  if (idx.commaOk "title").2 && (idx.commaOk "title").1 < row.length then
    index row (idx.commaOk "title").1
  else if row.length > 1 then index row 1
  else some ""

/-- The raw genres of a record: by the `genres` column, else the third field,
else the empty string. -/
def readGenres (idx : StrMap) (row : List String) : Option String :=
  if (idx.commaOk "genres").2 && (idx.commaOk "genres").1 < row.length then
    index row (idx.commaOk "genres").1
  else if row.length > 2 then index row 2
  else some ""

/-- The loop over the pieces of the genre field: trim, keep when not empty. -/
def genresLoop : List String → List String → List String
  | [], genres => genres
  | g :: rest, genres =>
    if Strings.TrimSpace g ≠ "" then genresLoop rest (genres ++ [Strings.TrimSpace g])
    else genresLoop rest genres

/-- The genre list built from the raw genre field. -/
def parseGenres (genresRaw : String) : List String :=
  if genresRaw ≠ "" ∧ genresRaw ≠ "(no genres listed)" then
    genresLoop (Strings.Split genresRaw '|') []
  else []

/-- The document built from one record; `now` is the value of `isoNow()`.
The result is `none` when an index is out of range. -/
def processRow (idx : StrMap) (row : List String) (now : String) : Option MovieDoc :=
  match readMovieId idx row, readTitle idx row, readGenres idx row with
  | some mid, some titleRaw, some genresRaw =>
    some { MovieID := mid
           Title := (parseTitleAndYear titleRaw).1
           Year := (parseTitleAndYear titleRaw).2
           Genres := parseGenres genresRaw
           CreatedAt := now }
  | _, _, _ => none

/-- What a call `r.Read()` returns before `io.EOF`: a record, or an error other
than `io.EOF`. -/
inductive ReadResult where
  | record (row : List String)
  | malformed
  deriving DecidableEq, Repr

/-- The main loop of `processMovies`: `written` counts the documents, `out` is
the list of documents written so far (one NDJSON line each); `clock k` is what
the call of `isoNow()` for document number `k` returns.  The end of the list of
read results is `io.EOF`.  The result is `none` when an index is out of range. -/
def processLoop (clock : Nat → String) (idx : StrMap) :
    List ReadResult → Nat → List MovieDoc → Option (Nat × List MovieDoc)
  | [], written, out => some (written, out)
  | ReadResult.malformed :: rest, written, out => processLoop clock idx rest written out
  | ReadResult.record row :: rest, written, out =>
    match processRow idx row (clock written) with
    | some doc => processLoop clock idx rest (written + 1) (out ++ [doc])
    | none => none

/-- How a call of `processMovies` ends. -/
inductive Outcome where
  | ok (written : Nat) (docs : List MovieDoc)
  | headerError
  | indexOutOfRange
  deriving DecidableEq, Repr

/-- The function `processMovies(inPath, outPath)` with both files opened: `reads`
are the results of the successive calls `r.Read()` up to `io.EOF`, the first
being the header.  `Outcome.ok written docs` is the return `written, nil` with
`docs` the documents written to the output; `Outcome.headerError` is the return
`0, err`. -/
def processMovies (clock : Nat → String) (reads : List ReadResult) : Outcome :=
  match reads with
  | [] => Outcome.headerError
  | ReadResult.malformed :: _ => Outcome.headerError
  | ReadResult.record header :: rest =>
    match processLoop clock (buildIdx header 0 []) rest 0 [] with
    | some (written, docs) => Outcome.ok written docs
    | none => Outcome.indexOutOfRange

end Main

namespace Main

/-- The value of a decimal digit character. -/
def digitOf (c : Char) : Int := (c.toNat : Int) - 48

/-- The text `t` ends with a parenthesized group of exactly four decimal
digits: it is the text `pre` followed by `(`, four digits and `)`, and `y` is
the number the four digits write. -/
def EndsWithYear (t pre : String) (y : Int) : Prop :=
  ∃ a b c d : Char, t.data = pre.data ++ ['(', a, b, c, d, ')']
    ∧ a.isDigit = true ∧ b.isDigit = true ∧ c.isDigit = true ∧ d.isDigit = true
    ∧ y = 1000 * digitOf a + 100 * digitOf b + 10 * digitOf c + digitOf d

end Main

namespace Main

/-- The records among the results of `r.Read()`, in order (the reads that
returned without error). -/
def recordsOf : List ReadResult → List (List String)
  | [] => []
  | ReadResult.record row :: rest => row :: recordsOf rest
  | ReadResult.malformed :: rest => recordsOf rest

end Main

/-! ## Concurrent callers of `GetOrCreate`

Several goroutines call `GetOrCreate` on one mapper.  The read-locked section
(`RLock` ... `RUnlock`) and the write-locked section (`Lock` ... `Unlock`) of a
call are the atomic steps: the write lock excludes every other section, and
read-locked sections only read.  A schedule says which caller takes its next
step; between the two sections of a call any other caller may run. -/

namespace Mappers

/-- Where a caller of `GetOrCreate` stands: before its read-locked section,
between the two sections (the read found nothing), or returned with an index. -/
inductive Pc where
  | start
  | missed
  | done (idx : Int)
  deriving DecidableEq, Repr

/-- The read-locked section of `GetOrCreate`: return the index if `id` is
mapped, else go on to the write lock. -/
def readSection (m : IDMapper) (id : Int) : Pc :=
  match m.mapping.lookup id with
  | some idx => Pc.done idx
  | none => Pc.missed

/-- The write-locked section of `GetOrCreate`: check again, then allocate. -/
def writeSection (m : IDMapper) (id : Int) : Pc × IDMapper :=
  match m.mapping.lookup id with
  | some idx => (Pc.done idx, m)
  | none =>
    (Pc.done m.nextIdx,
      { mapping := m.mapping.set id m.nextIdx, nextIdx := m.nextIdx + 1, changed := true })

/-- The shared mapper and, for every caller, the id it asks for and where it
stands. -/
structure Conc where
  mapper : IDMapper
  callers : List (Int × Pc)
  deriving DecidableEq, Repr

/-- The next atomic step of one caller on the shared mapper. -/
def stepCaller (m : IDMapper) (c : Int × Pc) : (Int × Pc) × IDMapper :=
  match c.2 with
  | Pc.start => ((c.1, readSection m c.1), m)
  | Pc.missed => ((c.1, (writeSection m c.1).1), (writeSection m c.1).2)
  | Pc.done _ => (c, m)

/-- Caller number `i` takes its next step (nothing happens when there is no
such caller or it has returned). -/
def step (s : Conc) (i : Nat) : Conc :=
  match s.callers[i]? with
  | none => s
  | some c =>
    { mapper := (stepCaller s.mapper c).2, callers := s.callers.set i (stepCaller s.mapper c).1 }

/-- The configuration after the steps of a schedule. -/
def exec (s : Conc) : List Nat → Conc
  | [] => s
  | i :: rest => exec (step s i) rest

end Mappers

namespace Main

/-- Position `p` is the last one at which `header` holds the name `name`. -/
def LastNamed (header : List String) (name : String) (p : Nat) : Prop :=
  header[p]? = some name ∧ ∀ q, p < q → header[q]? ≠ some name

end Main

/-! ## The identity mapper in 64-bit arithmetic

The Go type `int` has 64 bits on the platforms the pipeline runs on, and
`maxIdx + 1` and `m.nextIdx++` wrap around from the largest to the smallest
value.  `Go64.NewIDMapper` and `Go64.GetOrCreate` are the two routines with
that arithmetic; they differ from `NewIDMapper` and `IDMapper.GetOrCreate`
above only in the value given to `nextIdx`. -/

namespace Mappers

namespace Go64

/-- The value a 64-bit `int` holds when the exact result of an operation is
`x` (two's complement wrap-around). -/
def wrap (x : Int) : Int :=
  (x + 9223372036854775808) % 18446744073709551616 - 9223372036854775808

/-- The constructor `NewIDMapper(initialMap)`, with `maxIdx + 1` computed in
64 bits. -/
def NewIDMapper (initialMap : GoMap) : IDMapper :=
  let maxIdx := maxIdxLoop initialMap (-1)
  { mapping := initialMap, nextIdx := wrap (maxIdx + 1), changed := false }

/-- The method `(*IDMapper).GetOrCreate`, with `m.nextIdx++` computed in 64
bits: the returned index and the state afterwards. -/
def GetOrCreate (m : IDMapper) (id : Int) : Int × IDMapper :=
  match m.mapping.lookup id with
  | some idx => (idx, m)
  | none =>
    match m.mapping.lookup id with
    | some idx => (idx, m)
    | none =>
      let idx := m.nextIdx
      (idx, { mapping := m.mapping.set id idx, nextIdx := wrap (m.nextIdx + 1),
              changed := true })

/-- One method call on a mapper, in 64-bit arithmetic: the returned value and
the state afterwards. -/
def call (m : IDMapper) : Call → Ret × IDMapper
  | Call.get id => (Ret.int (m.Get id), m)
  | Call.getOrCreate id => (Ret.int (GetOrCreate m id).1, (GetOrCreate m id).2)
  | Call.hasChanged => (Ret.bool m.HasChanged, m)
  | Call.getMapping => (Ret.map m.GetMapping, m)
  | Call.count => (Ret.int m.Count, m)

/-- The state after a sequence of method calls, in 64-bit arithmetic. -/
def run (m : IDMapper) : List Call → IDMapper
  | [] => m
  | c :: cs => run (call m c).2 cs

end Go64

/-- The watermark counted without overflow: one plus the largest index of the
seed (`0` when there is none at or above `0`), plus one for every index
allocated by the calls. -/
def watermarkExact (seed : GoMap) (cs : List Call) : Int :=
  (run (NewIDMapper seed) cs).nextIdx

end Mappers

/-! ## Lemmas on the map model -/

namespace Mappers

namespace GoMap

theorem lookup_eq_none_iff (m : GoMap) (id : Int) :
    m.lookup id = none ↔ id ∉ m.keys := by
  induction m with
  | nil => simp [lookup, keys]
  | cons p rest ih =>
    obtain ⟨k, v⟩ := p
    by_cases h : k = id
    · simp [lookup, keys, h]
    · have h2 : ¬ id = k := fun e => h e.symm
      simp only [lookup, if_neg h, ih]
      simp [keys, h2]

theorem mem_of_lookup_eq_some (m : GoMap) (id v : Int) (h : m.lookup id = some v) :
    (id, v) ∈ m := by
  induction m with
  | nil => simp [lookup] at h
  | cons p rest ih =>
    obtain ⟨k, w⟩ := p
    by_cases hk : k = id
    · simp only [lookup, if_pos hk, Option.some.injEq] at h
      simp [hk, h]
    · simp only [lookup, if_neg hk] at h
      exact List.mem_cons_of_mem _ (ih h)

theorem set_of_lookup_eq_none (m : GoMap) (id idx : Int) (h : m.lookup id = none) :
    m.set id idx = m ++ [(id, idx)] := by
  induction m with
  | nil => rfl
  | cons p rest ih =>
    obtain ⟨k, w⟩ := p
    by_cases hk : k = id
    · simp [lookup, hk] at h
    · simp only [lookup, if_neg hk] at h
      simp [set, hk, ih h]

theorem lookup_append_single (m : GoMap) (id idx k : Int) :
    lookup (m ++ [(id, idx)]) k =
      match m.lookup k with
      | some v => some v
      | none => if id = k then some idx else none := by
  induction m with
  | nil => simp [lookup]
  | cons p rest ih =>
    obtain ⟨a, w⟩ := p
    by_cases ha : a = k
    · simp [lookup, ha]
    · have hstep : lookup ((a, w) :: (rest ++ [(id, idx)])) k
          = lookup (rest ++ [(id, idx)]) k := by simp only [lookup, if_neg ha]
      have hhead : lookup ((a, w) :: rest) k = lookup rest k := by
        simp only [lookup, if_neg ha]
      rw [List.cons_append, hstep, hhead, ih]

end GoMap

end Mappers

/-! ## Lemmas on the mapper -/

namespace Mappers

theorem maxIdxLoop_ge_start (m : GoMap) (a : Int) : a ≤ maxIdxLoop m a := by
  induction m generalizing a with
  | nil => simp [maxIdxLoop]
  | cons p rest ih =>
    obtain ⟨k, v⟩ := p
    by_cases h : v > a
    · simp only [maxIdxLoop, if_pos h]
      exact le_trans (le_of_lt h) (ih v)
    · simp only [maxIdxLoop, if_neg h]
      exact ih a

theorem maxIdxLoop_ge_mem (m : GoMap) (a : Int) : ∀ p ∈ m, p.2 ≤ maxIdxLoop m a := by
  induction m generalizing a with
  | nil => simp
  | cons q rest ih =>
    obtain ⟨k, v⟩ := q
    intro p hp
    rcases List.mem_cons.mp hp with hp | hp
    · subst hp
      by_cases h : v > a
      · simp only [maxIdxLoop, if_pos h]
        exact maxIdxLoop_ge_start rest v
      · simp only [maxIdxLoop, if_neg h]
        exact le_trans (not_lt.mp h) (maxIdxLoop_ge_start rest a)
    · by_cases h : v > a
      · simp only [maxIdxLoop, if_pos h]
        exact ih v p hp
      · simp only [maxIdxLoop, if_neg h]
        exact ih a p hp

theorem maxIdxLoop_eq_start_or_mem (m : GoMap) (a : Int) :
    maxIdxLoop m a = a ∨ ∃ p ∈ m, p.2 = maxIdxLoop m a := by
  induction m generalizing a with
  | nil => left; rfl
  | cons q rest ih =>
    obtain ⟨k, v⟩ := q
    by_cases h : v > a
    · simp only [maxIdxLoop, if_pos h]
      rcases ih v with hv | ⟨p, hp, hpe⟩
      · right; exact ⟨(k, v), List.mem_cons_self _ _, hv.symm⟩
      · right; exact ⟨p, List.mem_cons_of_mem _ hp, hpe⟩
    · simp only [maxIdxLoop, if_neg h]
      rcases ih a with ha | ⟨p, hp, hpe⟩
      · left; exact ha
      · right; exact ⟨p, List.mem_cons_of_mem _ hp, hpe⟩

theorem GetOrCreate_of_some (s : IDMapper) (id v : Int)
    (h : s.mapping.lookup id = some v) : s.GetOrCreate id = (v, s) := by
  simp [IDMapper.GetOrCreate, h]

theorem GetOrCreate_of_none (s : IDMapper) (id : Int)
    (h : s.mapping.lookup id = none) :
    s.GetOrCreate id =
      (s.nextIdx, { mapping := s.mapping ++ [(id, s.nextIdx)],
                    nextIdx := s.nextIdx + 1, changed := true }) := by
  simp [IDMapper.GetOrCreate, h, GoMap.set_of_lookup_eq_none]

theorem bounded_NewIDMapper (seed : GoMap) : Bounded (NewIDMapper seed) := by
  intro p hp
  have := maxIdxLoop_ge_mem seed (-1) p hp
  simp only [NewIDMapper] at hp ⊢
  omega

theorem bounded_GetOrCreate (s : IDMapper) (id : Int) (h : Bounded s) :
    Bounded (s.GetOrCreate id).2 := by
  cases hl : s.mapping.lookup id with
  | some v => rw [GetOrCreate_of_some s id v hl]; exact h
  | none =>
    rw [GetOrCreate_of_none s id hl]
    intro p hp
    simp only [List.mem_append, List.mem_singleton] at hp
    rcases hp with hp | hp
    · have := h p hp
      simp only; omega
    · subst hp
      simp

theorem call_state (s : IDMapper) (c : Call) :
    (call s c).2 = s ∨ ∃ id, c = .getOrCreate id ∧ (call s c).2 = (s.GetOrCreate id).2 := by
  cases c with
  | getOrCreate id => right; exact ⟨id, rfl, rfl⟩
  | get id => left; rfl
  | hasChanged => left; rfl
  | getMapping => left; rfl
  | count => left; rfl

theorem bounded_call (s : IDMapper) (c : Call) (h : Bounded s) : Bounded (call s c).2 := by
  rcases call_state s c with e | ⟨id, _, e⟩
  · rw [e]; exact h
  · rw [e]; exact bounded_GetOrCreate s id h

theorem bounded_run (s : IDMapper) (cs : List Call) (h : Bounded s) : Bounded (run s cs) := by
  induction cs generalizing s with
  | nil => exact h
  | cons c cs ih => exact ih _ (bounded_call s c h)

theorem run_append (s : IDMapper) (cs₁ cs₂ : List Call) :
    run s (cs₁ ++ cs₂) = run (run s cs₁) cs₂ := by
  induction cs₁ generalizing s with
  | nil => rfl
  | cons c cs ih => exact ih _

theorem nextIdx_le_GetOrCreate (s : IDMapper) (id : Int) :
    s.nextIdx ≤ (s.GetOrCreate id).2.nextIdx := by
  cases hl : s.mapping.lookup id with
  | some v => rw [GetOrCreate_of_some s id v hl]
  | none => rw [GetOrCreate_of_none s id hl]; simp

theorem nextIdx_le_run (s : IDMapper) (cs : List Call) : s.nextIdx ≤ (run s cs).nextIdx := by
  induction cs generalizing s with
  | nil => exact le_refl _
  | cons c cs ih =>
    refine le_trans ?_ (ih _)
    rcases call_state s c with e | ⟨id, _, e⟩
    · rw [e]
    · rw [e]; exact nextIdx_le_GetOrCreate s id

theorem GetOrCreate_result_lt (s : IDMapper) (id : Int) (h : Bounded s) :
    (s.GetOrCreate id).1 < (s.GetOrCreate id).2.nextIdx := by
  cases hl : s.mapping.lookup id with
  | some v =>
    rw [GetOrCreate_of_some s id v hl]
    exact h (id, v) (GoMap.mem_of_lookup_eq_some _ _ _ hl)
  | none => rw [GetOrCreate_of_none s id hl]; simp

end Mappers

namespace Mappers

theorem oneToOne_GetOrCreate (s : IDMapper) (id : Int) (hb : Bounded s)
    (h : OneToOne s.mapping) : OneToOne (s.GetOrCreate id).2.mapping := by
  cases hl : s.mapping.lookup id with
  | some v => rw [GetOrCreate_of_some s id v hl]; exact h
  | none =>
    rw [GetOrCreate_of_none s id hl]
    intro a b i ha hb'
    simp only [GoMap.lookup_append_single] at ha hb'
    cases hla : s.mapping.lookup a with
    | some va =>
      have hva := hb (a, va) (GoMap.mem_of_lookup_eq_some _ _ _ hla)
      simp only [hla, Option.some.injEq] at ha
      cases hlb : s.mapping.lookup b with
      | some vb =>
        simp only [hlb, Option.some.injEq] at hb'
        exact h a b i (by rw [hla, ha]) (by rw [hlb, hb'])
      | none =>
        simp only [hlb] at hb'
        split at hb'
        · simp only [Option.some.injEq] at hb'
          simp only at hva
          omega
        · cases hb'
    | none =>
      simp only [hla] at ha
      split at ha
      · rename_i hida
        simp only [Option.some.injEq] at ha
        cases hlb : s.mapping.lookup b with
        | some vb =>
          have hvb := hb (b, vb) (GoMap.mem_of_lookup_eq_some _ _ _ hlb)
          simp only [hlb, Option.some.injEq] at hb'
          simp only at hvb
          omega
        | none =>
          simp only [hlb] at hb'
          split at hb'
          · rename_i hidb
            rw [← hida, ← hidb]
          · cases hb'
      · cases ha

theorem oneToOne_run (s : IDMapper) (cs : List Call) (hb : Bounded s)
    (h : OneToOne s.mapping) : OneToOne (run s cs).mapping := by
  induction cs generalizing s with
  | nil => exact h
  | cons c cs ih =>
    refine ih _ (bounded_call s c hb) ?_
    rcases call_state s c with e | ⟨id, _, e⟩
    · rw [e]; exact h
    · rw [e]; exact oneToOne_GetOrCreate s id hb h

/-! ## The identity mapper: allocation, invariants -/

/-- With exact counting: in every state reached from `NewIDMapper(seed)` by method calls, a call
`GetOrCreate(id)` with an `id` that is not a key returns the watermark
`nextIdx`; that value is above every index in the mapping and above every value
an earlier `GetOrCreate` returned; afterwards `id` maps to it and `nextIdx` is
one more. -/
theorem getOrCreate_unseen_allocates_watermark (seed : GoMap) (cs : List Call) (id : Int)
    (hnew : id ∉ (run (NewIDMapper seed) cs).mapping.keys) :
    ((run (NewIDMapper seed) cs).GetOrCreate id).1 = (run (NewIDMapper seed) cs).nextIdx
    ∧ (∀ p ∈ (run (NewIDMapper seed) cs).mapping,
        p.2 < ((run (NewIDMapper seed) cs).GetOrCreate id).1)
    ∧ (∀ cs₁ cs₂ id', cs = cs₁ ++ Call.getOrCreate id' :: cs₂ →
        ((run (NewIDMapper seed) cs₁).GetOrCreate id').1
          < ((run (NewIDMapper seed) cs).GetOrCreate id).1)
    ∧ ((run (NewIDMapper seed) cs).GetOrCreate id).2.mapping.lookup id
        = some (run (NewIDMapper seed) cs).nextIdx
    ∧ ((run (NewIDMapper seed) cs).GetOrCreate id).2.nextIdx
        = (run (NewIDMapper seed) cs).nextIdx + 1 := by
  have hl := (GoMap.lookup_eq_none_iff _ _).mpr hnew
  have hb := bounded_run _ cs (bounded_NewIDMapper seed)
  rw [GetOrCreate_of_none _ id hl]
  refine ⟨rfl, hb, ?_, ?_, rfl⟩
  · intro cs₁ cs₂ id' hcs
    have hb₁ := bounded_run _ cs₁ (bounded_NewIDMapper seed)
    have hlt := GetOrCreate_result_lt _ id' hb₁
    have hmono : ((run (NewIDMapper seed) cs₁).GetOrCreate id').2.nextIdx
        ≤ (run (NewIDMapper seed) cs).nextIdx := by
      have hrun : run (NewIDMapper seed) cs
          = run ((run (NewIDMapper seed) cs₁).GetOrCreate id').2 cs₂ := by
        rw [hcs, run_append]; rfl
      rw [hrun]
      exact nextIdx_le_run _ cs₂
    exact lt_of_lt_of_le hlt hmono
  · simp only [GoMap.lookup_append_single, hl, if_true]

theorem getOrCreate_unseen_allocates_watermark_witness :
    (40 : Int) ∉ (run (NewIDMapper [(10, 0), (20, 1)])
        [Call.getOrCreate 30, Call.get 10]).mapping.keys
    ∧ ((run (NewIDMapper [(10, 0), (20, 1)])
        [Call.getOrCreate 30, Call.get 10]).GetOrCreate 40).1 = 3 :=
  ⟨by decide,
   (getOrCreate_unseen_allocates_watermark [(10, 0), (20, 1)]
      [Call.getOrCreate 30, Call.get 10] 40 (by decide)).1.trans (by decide)⟩

/-- With exact counting: when no two ids of the seed share an index, no two ids share an index
in any state reached from `NewIDMapper(seed)` by method calls (in particular
by `GetOrCreate` calls). -/
theorem mapping_stays_one_to_one (seed : GoMap) (cs : List Call)
    (hseed : ∀ id₁ id₂ idx, seed.lookup id₁ = some idx → seed.lookup id₂ = some idx →
      id₁ = id₂) :
    ∀ id₁ id₂ idx, (run (NewIDMapper seed) cs).mapping.lookup id₁ = some idx →
      (run (NewIDMapper seed) cs).mapping.lookup id₂ = some idx → id₁ = id₂ :=
  oneToOne_run (NewIDMapper seed) cs (bounded_NewIDMapper seed) hseed

theorem mapping_stays_one_to_one_witness :
    OneToOne [(10, 0), (20, 1)]
    ∧ OneToOne (run (NewIDMapper [(10, 0), (20, 1)])
        [Call.getOrCreate 30, Call.getOrCreate 10]).mapping :=
  have hseed : OneToOne [(10, 0), (20, 1)] := by
    intro a b i ha hb
    simp only [GoMap.lookup] at ha hb
    split at ha <;> split at hb <;> simp_all <;> omega
  ⟨hseed, mapping_stays_one_to_one [(10, 0), (20, 1)]
    [Call.getOrCreate 30, Call.getOrCreate 10] hseed⟩

/-- With exact counting: for every seed and every sequence of method calls on
`NewIDMapper(seed)`, every index stored in the mapping is strictly below
`nextIdx`. -/
theorem indices_below_watermark (seed : GoMap) (cs : List Call) :
    ∀ p ∈ (run (NewIDMapper seed) cs).mapping, p.2 < (run (NewIDMapper seed) cs).nextIdx :=
  bounded_run (NewIDMapper seed) cs (bounded_NewIDMapper seed)

theorem indices_below_watermark_witness :
    ((30, 2) : Int × Int) ∈ (run (NewIDMapper [(10, 0), (20, 1)])
        [Call.getOrCreate 30, Call.count]).mapping
    ∧ (2 : Int) < (run (NewIDMapper [(10, 0), (20, 1)])
        [Call.getOrCreate 30, Call.count]).nextIdx :=
  ⟨by decide,
   indices_below_watermark [(10, 0), (20, 1)] [Call.getOrCreate 30, Call.count] (30, 2)
     (by decide)⟩

end Mappers

namespace Mappers

theorem nextIdx_NewIDMapper_nonneg (seed : GoMap) : 0 ≤ (NewIDMapper seed).nextIdx := by
  have := maxIdxLoop_ge_start seed (-1)
  simp only [NewIDMapper]
  omega

/-- With exact counting: for a seed whose indices are all `>= 0`, `NewIDMapper(seed)` sets
`nextIdx` to `0` when the seed is empty and otherwise to one plus the largest
index of the seed; the `changed` flag starts `false` (and the mapping is the
seed). -/
theorem newIDMapper_watermark_is_max_plus_one (seed : GoMap)
    (hnonneg : ∀ p ∈ seed, 0 ≤ p.2) :
    (seed = [] → (NewIDMapper seed).nextIdx = 0)
    ∧ (seed ≠ [] → ∃ p ∈ seed, (∀ q ∈ seed, q.2 ≤ p.2)
        ∧ (NewIDMapper seed).nextIdx = p.2 + 1)
    ∧ (NewIDMapper seed).changed = false
    ∧ (NewIDMapper seed).mapping = seed := by
  refine ⟨?_, ?_, rfl, rfl⟩
  · intro he
    subst he
    rfl
  · intro hne
    rcases maxIdxLoop_eq_start_or_mem seed (-1) with hstart | ⟨p, hp, hpe⟩
    · exfalso
      obtain ⟨q, hq⟩ := List.exists_mem_of_ne_nil seed hne
      have h1 := maxIdxLoop_ge_mem seed (-1) q hq
      have h2 := hnonneg q hq
      omega
    · refine ⟨p, hp, ?_, ?_⟩
      · intro q hq
        rw [hpe]
        exact maxIdxLoop_ge_mem seed (-1) q hq
      · simp only [NewIDMapper, hpe]

theorem newIDMapper_watermark_is_max_plus_one_witness :
    (∀ p ∈ ([(10, 2), (20, 0), (30, 1)] : GoMap), 0 ≤ p.2)
    ∧ (NewIDMapper [(10, 2), (20, 0), (30, 1)]).changed = false
    ∧ (NewIDMapper [(10, 2), (20, 0), (30, 1)]).nextIdx = 3 :=
  ⟨by decide,
   (newIDMapper_watermark_is_max_plus_one [(10, 2), (20, 0), (30, 1)] (by decide)).2.2.1,
   by decide⟩

/-- C6: in every mapper state, `GetOrCreate(id)` with an `id` that is already a
key returns the index mapped to `id` and leaves the mapper (mapping, `nextIdx`,
`changed`) as it was; hence a second `GetOrCreate` with the same id returns
what the first returned and changes nothing. -/
theorem getOrCreate_existing_is_noop (s : IDMapper) (id : Int) :
    (∀ idx, s.mapping.lookup id = some idx → s.GetOrCreate id = (idx, s))
    ∧ (s.GetOrCreate id).2.GetOrCreate id = ((s.GetOrCreate id).1, (s.GetOrCreate id).2) := by
  refine ⟨fun idx h => GetOrCreate_of_some s id idx h, ?_⟩
  cases hl : s.mapping.lookup id with
  | some v =>
    rw [GetOrCreate_of_some s id v hl]
    exact GetOrCreate_of_some s id v hl
  | none =>
    rw [GetOrCreate_of_none s id hl]
    apply GetOrCreate_of_some
    simp only [GoMap.lookup_append_single, hl, if_true]

theorem getOrCreate_existing_is_noop_witness :
    GoMap.lookup [(10, 0), (20, 1)] 20 = some 1
    ∧ IDMapper.GetOrCreate ⟨[(10, 0), (20, 1)], 2, false⟩ 20
        = (1, ⟨[(10, 0), (20, 1)], 2, false⟩) :=
  ⟨by decide,
   (getOrCreate_existing_is_noop ⟨[(10, 0), (20, 1)], 2, false⟩ 20).1 1 (by decide)⟩

end Mappers

namespace Mappers

theorem changed_GetOrCreate (s : IDMapper) (id : Int) :
    (s.GetOrCreate id).2.changed = true ↔ s.changed = true ∨ id ∉ s.mapping.keys := by
  cases hl : s.mapping.lookup id with
  | some v =>
    have hin : ¬ id ∉ s.mapping.keys := by
      rw [← GoMap.lookup_eq_none_iff, hl]; simp
    rw [GetOrCreate_of_some s id v hl]
    simp [hin]
  | none =>
    have hout := (GoMap.lookup_eq_none_iff _ _).mp hl
    rw [GetOrCreate_of_none s id hl]
    simp [hout]

theorem keys_GetOrCreate (s : IDMapper) (id k : Int) :
    k ∈ (s.GetOrCreate id).2.mapping.keys ↔ k ∈ s.mapping.keys ∨ k = id := by
  cases hl : s.mapping.lookup id with
  | some v =>
    have hin : id ∈ s.mapping.keys := by
      by_contra hc
      rw [← GoMap.lookup_eq_none_iff, hl] at hc
      cases hc
    rw [GetOrCreate_of_some s id v hl]
    constructor
    · intro h; exact Or.inl h
    · rintro (h | h)
      · exact h
      · rw [h]; exact hin
  | none =>
    rw [GetOrCreate_of_none s id hl]
    simp [GoMap.keys]

theorem changed_run_frame (s : IDMapper) (c : Call) (cs : List Call)
    (hc : ∀ id, ¬ Call.getOrCreate id = c) :
    (s.changed = true ∨ ∃ id, Call.getOrCreate id ∈ cs ∧ id ∉ s.mapping.keys)
      ↔ (s.changed = true ∨ ∃ id, Call.getOrCreate id ∈ c :: cs ∧ id ∉ s.mapping.keys) := by
  constructor
  · rintro (h | ⟨id, hmem, hid⟩)
    · exact Or.inl h
    · exact Or.inr ⟨id, List.mem_cons_of_mem _ hmem, hid⟩
  · rintro (h | ⟨id, hmem, hid⟩)
    · exact Or.inl h
    · rcases List.mem_cons.mp hmem with hh | hh
      · exact absurd hh (hc id)
      · exact Or.inr ⟨id, hh, hid⟩

theorem changed_run (s : IDMapper) (cs : List Call) :
    (run s cs).changed = true ↔
      s.changed = true ∨ ∃ id, Call.getOrCreate id ∈ cs ∧ id ∉ s.mapping.keys := by
  induction cs generalizing s with
  | nil => simp [run]
  | cons c cs ih =>
    simp only [run]
    rw [ih]
    cases c with
    | get a => exact changed_run_frame s _ cs (fun id h => by cases h)
    | hasChanged => exact changed_run_frame s _ cs (fun id h => by cases h)
    | getMapping => exact changed_run_frame s _ cs (fun id h => by cases h)
    | count => exact changed_run_frame s _ cs (fun id h => by cases h)
    | getOrCreate id =>
      have e : (call s (Call.getOrCreate id)).2 = (s.GetOrCreate id).2 := rfl
      rw [e, changed_GetOrCreate]
      constructor
      · rintro ((h | h) | ⟨id', hmem, hid'⟩)
        · exact Or.inl h
        · exact Or.inr ⟨id, List.mem_cons_self _ _, h⟩
        · refine Or.inr ⟨id', List.mem_cons_of_mem _ hmem, ?_⟩
          intro hk
          exact hid' ((keys_GetOrCreate s id id').mpr (Or.inl hk))
      · rintro (h | ⟨id', hmem, hid'⟩)
        · exact Or.inl (Or.inl h)
        · rcases List.mem_cons.mp hmem with hh | hh
          · cases hh
            exact Or.inl (Or.inr hid')
          · by_cases hii : id' = id
            · subst hii
              exact Or.inl (Or.inr hid')
            · refine Or.inr ⟨id', hh, ?_⟩
              intro hk
              rcases (keys_GetOrCreate s id id').mp hk with hk | hk
              · exact hid' hk
              · exact hii hk

/-- C7: for every seed and every sequence of method calls on
`NewIDMapper(seed)` (in particular of `Get` / `GetOrCreate` calls),
`HasChanged()` is true if and only if the sequence holds a `GetOrCreate` call
with an id that is not a key of the seed. -/
theorem hasChanged_iff_new_id_requested (seed : GoMap) (cs : List Call) :
    (run (NewIDMapper seed) cs).HasChanged = true
      ↔ ∃ id, Call.getOrCreate id ∈ cs ∧ id ∉ seed.keys := by
  have h := changed_run (NewIDMapper seed) cs
  simp only [IDMapper.HasChanged]
  rw [h]
  simp [NewIDMapper]

end Mappers

namespace Mappers

theorem GoMap.lookup_append_of_some (m l : GoMap) (id i : Int) (h : m.lookup id = some i) :
    (m ++ l).lookup id = some i := by
  induction m with
  | nil => simp [GoMap.lookup] at h
  | cons p rest ih =>
    obtain ⟨k, w⟩ := p
    by_cases hk : k = id
    · simp only [GoMap.lookup, if_pos hk] at h
      simp only [List.cons_append, GoMap.lookup, if_pos hk, h]
    · simp only [GoMap.lookup, if_neg hk] at h
      simp only [List.cons_append, GoMap.lookup, if_neg hk]
      exact ih h

theorem mapping_GetOrCreate_extends (s : IDMapper) (id : Int) :
    ∃ added, (s.GetOrCreate id).2.mapping = s.mapping ++ added := by
  cases hl : s.mapping.lookup id with
  | some v => exact ⟨[], by rw [GetOrCreate_of_some s id v hl]; simp⟩
  | none => exact ⟨[(id, s.nextIdx)], by rw [GetOrCreate_of_none s id hl]⟩

theorem mapping_run_extends (s : IDMapper) (cs : List Call) :
    ∃ added, (run s cs).mapping = s.mapping ++ added := by
  induction cs generalizing s with
  | nil => exact ⟨[], by simp [run]⟩
  | cons c cs ih =>
    obtain ⟨l₂, h₂⟩ := ih (call s c).2
    rcases call_state s c with e | ⟨id, _, e⟩
    · exact ⟨l₂, by simp only [run]; rw [h₂, e]⟩
    · obtain ⟨l₁, h₁⟩ := mapping_GetOrCreate_extends s id
      exact ⟨l₁ ++ l₂, by simp only [run]; rw [h₂, e, h₁, List.append_assoc]⟩

theorem wf_GetOrCreate (s : IDMapper) (id : Int) (h : s.mapping.WF) :
    (s.GetOrCreate id).2.mapping.WF := by
  cases hl : s.mapping.lookup id with
  | some v => rw [GetOrCreate_of_some s id v hl]; exact h
  | none =>
    have hout := (GoMap.lookup_eq_none_iff _ _).mp hl
    rw [GetOrCreate_of_none s id hl]
    simp only [GoMap.WF, GoMap.keys, List.map_append, List.map_cons, List.map_nil] at h hout ⊢
    rw [List.nodup_append]
    refine ⟨h, List.nodup_singleton _, ?_⟩
    intro a ha hb
    rw [List.mem_singleton] at hb
    subst hb
    exact hout ha

theorem dense_GetOrCreate (s : IDMapper) (id : Int)
    (h : s.nextIdx = s.mapping.len
      ∧ ∀ i : Int, i ∈ s.mapping.values ↔ 0 ≤ i ∧ i < s.mapping.len) :
    (s.GetOrCreate id).2.nextIdx = (s.GetOrCreate id).2.mapping.len
      ∧ ∀ i : Int, i ∈ (s.GetOrCreate id).2.mapping.values
          ↔ 0 ≤ i ∧ i < (s.GetOrCreate id).2.mapping.len := by
  cases hl : s.mapping.lookup id with
  | some v => rw [GetOrCreate_of_some s id v hl]; exact h
  | none =>
    rw [GetOrCreate_of_none s id hl]
    obtain ⟨hn, hv⟩ := h
    simp only [GoMap.len, GoMap.values] at hn hv ⊢
    refine ⟨?_, ?_⟩
    · simp only [List.length_append, List.length_singleton, Nat.cast_add, Nat.cast_one]
      omega
    · intro i
      simp only [List.map_append, List.map_cons, List.map_nil, List.mem_append,
        List.mem_singleton, List.length_append, List.length_singleton, Nat.cast_add,
        Nat.cast_one, hv i]
      omega

theorem dense_wf_run (s : IDMapper) (cs : List Call)
    (h : s.mapping.WF ∧ s.nextIdx = s.mapping.len
      ∧ ∀ i : Int, i ∈ s.mapping.values ↔ 0 ≤ i ∧ i < s.mapping.len) :
    (run s cs).mapping.WF ∧ (run s cs).nextIdx = (run s cs).mapping.len
      ∧ ∀ i : Int, i ∈ (run s cs).mapping.values ↔ 0 ≤ i ∧ i < (run s cs).mapping.len := by
  induction cs generalizing s with
  | nil => exact h
  | cons c cs ih =>
    refine ih _ ?_
    rcases call_state s c with e | ⟨id, _, e⟩
    · rw [e]; exact h
    · rw [e]; exact ⟨wf_GetOrCreate s id h.1, dense_GetOrCreate s id h.2⟩

theorem dense_NewIDMapper (seed : GoMap)
    (h : ∀ i : Int, i ∈ seed.values ↔ 0 ≤ i ∧ i < seed.len) :
    (NewIDMapper seed).nextIdx = seed.len := by
  simp only [GoMap.len, GoMap.values, List.mem_map] at h
  simp only [NewIDMapper, GoMap.len]
  rcases maxIdxLoop_eq_start_or_mem seed (-1) with hstart | ⟨p, hp, hpe⟩
  · cases seed with
    | nil => simp [maxIdxLoop]
    | cons q rest =>
      exfalso
      have hq := (h q.2).mp ⟨q, List.mem_cons_self _ _, rfl⟩
      have := maxIdxLoop_ge_mem (q :: rest) (-1) q (List.mem_cons_self _ _)
      omega
  · have hp2 := (h p.2).mp ⟨p, hp, rfl⟩
    have hlen : 0 < seed.length := List.length_pos_of_mem hp
    obtain ⟨q, hq, hqe⟩ := (h ((seed.length : Int) - 1)).mpr ⟨by omega, by omega⟩
    have hq2 := maxIdxLoop_ge_mem seed (-1) q hq
    omega

/-! ## The identity mapper: stability and density of the indices -/

/-- C8: when `id` maps to `i` in a mapper state, then after any further
sequence of method calls (in particular `GetOrCreate` calls with arbitrary
ids) `id` still maps to `i` and `Get(id)` returns `i`; the calls only add
entries behind the existing ones, none is rewritten or removed. -/
theorem indices_are_stable (s : IDMapper) (cs : List Call) (id i : Int)
    (h : s.mapping.lookup id = some i) :
    (run s cs).mapping.lookup id = some i
    ∧ (run s cs).Get id = i
    ∧ ∃ added, (run s cs).mapping = s.mapping ++ added := by
  obtain ⟨added, hadd⟩ := mapping_run_extends s cs
  have hl : (run s cs).mapping.lookup id = some i := by
    rw [hadd]; exact GoMap.lookup_append_of_some _ _ _ _ h
  exact ⟨hl, by simp [IDMapper.Get, hl], added, hadd⟩

theorem indices_are_stable_witness :
    (NewIDMapper [(10, 0), (20, 1)]).mapping.lookup 20 = some 1
    ∧ (run (NewIDMapper [(10, 0), (20, 1)])
        [Call.getOrCreate 30, Call.getOrCreate 20, Call.getOrCreate 5]).Get 20 = 1 :=
  ⟨by decide,
   (indices_are_stable (NewIDMapper [(10, 0), (20, 1)])
      [Call.getOrCreate 30, Call.getOrCreate 20, Call.getOrCreate 5] 20 1 (by decide)).2.1⟩

/-- C9: when the seed is a well-formed map that is empty, or that maps its
`n` ids one-to-one onto `0, ..., n-1`, then after any sequence of method calls
(in particular `GetOrCreate` calls) the mapping is still a well-formed map, its
indices are exactly the integers `0, ..., Count()-1`, and `nextIdx` equals
`Count()`. -/
theorem indices_dense_zero_based (seed : GoMap) (cs : List Call) (hwf : seed.WF)
    (hseed : seed = [] ∨
      (seed.values.Nodup ∧ ∀ i : Int, i ∈ seed.values ↔ 0 ≤ i ∧ i < seed.len)) :
    (run (NewIDMapper seed) cs).mapping.WF
    ∧ (∀ i : Int, i ∈ (run (NewIDMapper seed) cs).mapping.values
        ↔ 0 ≤ i ∧ i < (run (NewIDMapper seed) cs).Count)
    ∧ (run (NewIDMapper seed) cs).nextIdx = (run (NewIDMapper seed) cs).Count := by
  have hrange : ∀ i : Int, i ∈ seed.values ↔ 0 ≤ i ∧ i < seed.len := by
    rcases hseed with he | ⟨_, h⟩
    · subst he
      intro i
      simp only [GoMap.values, GoMap.len, List.map_nil, List.not_mem_nil, List.length_nil,
        Nat.cast_zero, false_iff]
      omega
    · exact h
  have hinv := dense_wf_run (NewIDMapper seed) cs ⟨hwf, dense_NewIDMapper seed hrange, hrange⟩
  exact ⟨hinv.1, hinv.2.2, hinv.2.1⟩

theorem indices_dense_zero_based_witness :
    GoMap.WF [(10, 1), (20, 0)]
    ∧ (run (NewIDMapper [(10, 1), (20, 0)])
        [Call.getOrCreate 30, Call.getOrCreate 10, Call.getOrCreate 7]).nextIdx = 4
    ∧ (run (NewIDMapper [(10, 1), (20, 0)])
        [Call.getOrCreate 30, Call.getOrCreate 10, Call.getOrCreate 7]).Count = 4 :=
  have hwf : GoMap.WF [(10, 1), (20, 0)] := by
    simp [GoMap.WF, GoMap.keys]
  have hseed : ([(10, 1), (20, 0)] : GoMap) = [] ∨
      (GoMap.values [(10, 1), (20, 0)]).Nodup
        ∧ ∀ i : Int, i ∈ GoMap.values [(10, 1), (20, 0)]
            ↔ 0 ≤ i ∧ i < GoMap.len [(10, 1), (20, 0)] := by
    right
    refine ⟨by simp [GoMap.values], ?_⟩
    intro i
    simp only [GoMap.values, GoMap.len, List.map_cons, List.map_nil, List.mem_cons,
      List.mem_singleton, List.not_mem_nil, or_false, List.length_cons, List.length_nil]
    omega
  ⟨hwf,
   ((indices_dense_zero_based [(10, 1), (20, 0)]
      [Call.getOrCreate 30, Call.getOrCreate 10, Call.getOrCreate 7] hwf hseed).2.2).trans
      (by decide),
   by decide⟩

end Mappers

/-! ## Persistence of a mapping: `SaveItemMap`, `SaveUserMap` -/

namespace Mappers

theorem collect_eq_append (m : GoMap) (items : List (Int × Int)) :
    collect m items = items ++ m := by
  induction m generalizing items with
  | nil => simp [collect]
  | cons p rest ih =>
    obtain ⟨id, idx⟩ := p
    simp only [collect, ih, List.append_assoc, List.singleton_append]

theorem sortsByIdx_sortSliceByIdx : SortsByIdx sortSliceByIdx := by
  intro items
  haveI : IsTotal (Int × Int) (fun a b => a.2 ≤ b.2) := ⟨fun a b => le_total a.2 b.2⟩
  haveI : IsTrans (Int × Int) (fun a b => a.2 ≤ b.2) := ⟨fun _ _ _ h₁ h₂ => le_trans h₁ h₂⟩
  refine ⟨List.perm_insertionSort _ items, ?_⟩
  have hs : (sortSliceByIdx items).Pairwise (fun a b => a.2 ≤ b.2) :=
    List.sorted_insertionSort (fun a b : Int × Int => a.2 ≤ b.2) items
  exact hs.imp (fun h => not_lt.mpr h)

/-- A slice with pairwise distinct indices, once sorted by `sort.Slice`, is
strictly ascending in the index. -/
theorem sorted_strict_of_distinct (srt : List (Int × Int) → List (Int × Int))
    (hsrt : SortsByIdx srt) (items : List (Int × Int))
    (hdistinct : (items.map Prod.snd).Nodup) :
    (srt items).Pairwise (fun a b => a.2 < b.2) := by
  obtain ⟨hperm, hsorted⟩ := hsrt items
  have hnd : ((srt items).map Prod.snd).Nodup := (hperm.map Prod.snd).symm.nodup hdistinct
  have hne : (srt items).Pairwise (fun a b => a.2 ≠ b.2) := by
    rw [List.Nodup, List.pairwise_map] at hnd
    exact hnd
  refine (hsorted.and hne).imp ?_
  intro a b h
  have h1 := h.1
  have h2 := h.2
  omega

/-- Two strictly ascending arrangements of the same entries are equal. -/
theorem strict_sorted_unique (l₁ l₂ : List (Int × Int)) (hperm : l₁.Perm l₂)
    (h₁ : l₁.Pairwise (fun a b => a.2 < b.2)) (h₂ : l₂.Pairwise (fun a b => a.2 < b.2)) :
    l₁ = l₂ := by
  haveI : IsAntisymm (Int × Int) (fun a b => a.2 < b.2) :=
    ⟨fun a b hab hba => absurd (lt_trans hab hba) (lt_irrefl _)⟩
  exact List.eq_of_perm_of_sorted hperm h₁ h₂

theorem sorted_independent_of_order (srt srt' : List (Int × Int) → List (Int × Int))
    (hsrt : SortsByIdx srt) (hsrt' : SortsByIdx srt') (m m' : GoMap)
    (hdistinct : m.values.Nodup) (hperm : m'.Perm m) :
    srt' (collect m' []) = srt (collect m []) := by
  simp only [collect_eq_append, List.nil_append]
  have hd' : (m'.map Prod.snd).Nodup := (hperm.map Prod.snd).symm.nodup hdistinct
  refine strict_sorted_unique _ _ ?_ (sorted_strict_of_distinct srt' hsrt' m' hd')
    (sorted_strict_of_distinct srt hsrt m hdistinct)
  exact ((hsrt' m').1.trans hperm).trans (hsrt m).1.symm

/-- C10: for a map whose indices are pairwise distinct, the records that
`SaveItemMap` and `SaveUserMap` write after their header are the records of the
map's (id, index) pairs, each pair once, in strictly ascending order of the
index; the records are the same for every iteration order of the map (and for
every sorting routine that meets the contract of `sort.Slice`). -/
theorem save_rows_ascending_by_index (srt : List (Int × Int) → List (Int × Int))
    (hsrt : SortsByIdx srt) (m : GoMap) (hdistinct : m.values.Nodup) :
    ∃ items : List (Int × Int),
      items.Perm m
      ∧ items.Pairwise (fun a b => a.2 < b.2)
      ∧ SaveItemMap srt m = ["movieId", "iIdx"] :: items.map record
      ∧ SaveUserMap srt m = ["userId", "uIdx"] :: items.map record
      ∧ ∀ srt' m', SortsByIdx srt' → m'.Perm m →
          SaveItemMap srt' m' = SaveItemMap srt m ∧ SaveUserMap srt' m' = SaveUserMap srt m := by
  refine ⟨srt (collect m []), ?_, ?_, rfl, rfl, ?_⟩
  · rw [collect_eq_append, List.nil_append]
    exact (hsrt m).1
  · rw [collect_eq_append, List.nil_append]
    exact sorted_strict_of_distinct srt hsrt m hdistinct
  · intro srt' m' hsrt' hperm
    have h := sorted_independent_of_order srt srt' hsrt hsrt' m m' hdistinct hperm
    simp only [SaveItemMap, SaveUserMap, h, and_self]

theorem save_rows_ascending_by_index_witness :
    SortsByIdx sortSliceByIdx
    ∧ (GoMap.values [(10, 2), (20, 0), (30, 1)]).Nodup
    ∧ SaveItemMap sortSliceByIdx [(10, 2), (20, 0), (30, 1)]
        = [["movieId", "iIdx"], ["20", "0"], ["30", "1"], ["10", "2"]]
    ∧ ∃ items : List (Int × Int),
        items.Perm [(10, 2), (20, 0), (30, 1)]
        ∧ items.Pairwise (fun a b => a.2 < b.2)
        ∧ SaveItemMap sortSliceByIdx [(10, 2), (20, 0), (30, 1)]
            = ["movieId", "iIdx"] :: items.map record
        ∧ SaveUserMap sortSliceByIdx [(10, 2), (20, 0), (30, 1)]
            = ["userId", "uIdx"] :: items.map record
        ∧ ∀ srt' m', SortsByIdx srt' → m'.Perm [(10, 2), (20, 0), (30, 1)] →
            SaveItemMap srt' m' = SaveItemMap sortSliceByIdx [(10, 2), (20, 0), (30, 1)]
            ∧ SaveUserMap srt' m' = SaveUserMap sortSliceByIdx [(10, 2), (20, 0), (30, 1)] :=
  ⟨sortsByIdx_sortSliceByIdx, by decide, by decide,
   save_rows_ascending_by_index sortSliceByIdx sortsByIdx_sortSliceByIdx
     [(10, 2), (20, 0), (30, 1)] (by decide)⟩

end Mappers

/-! ## Decimal strings: `Atoi` reads back what `Itoa` wrote -/

namespace Strconv

theorem digitValue_digitChar (d : Nat) (h : d < 10) :
    digitValue (Nat.digitChar d) = some d := by
  interval_cases d <;> rfl

theorem isDigit_digitChar (d : Nat) (h : d < 10) : (Nat.digitChar d).isDigit = true := by
  interval_cases d <;> rfl

theorem toDigitsCore_append (fuel n : Nat) (ds : List Char) :
    Nat.toDigitsCore 10 fuel n ds = Nat.toDigitsCore 10 fuel n [] ++ ds := by
  induction fuel generalizing n ds with
  | zero => simp [Nat.toDigitsCore]
  | succ fuel ih =>
    simp only [Nat.toDigitsCore]
    by_cases h : n / 10 = 0
    · simp [h]
    · simp only [h, if_false]
      rw [ih (n / 10) (Nat.digitChar (n % 10) :: ds), ih (n / 10) [Nat.digitChar (n % 10)]]
      simp

theorem parseDigits_append (l r : List Char) (acc : Nat) :
    parseDigits (l ++ r) acc = (parseDigits l acc).bind (parseDigits r) := by
  induction l generalizing acc with
  | nil => simp [parseDigits]
  | cons c cs ih =>
    simp only [List.cons_append, parseDigits]
    cases digitValue c with
    | none => simp
    | some d => exact ih (acc * 10 + d)

theorem parseDigits_toDigitsCore (fuel n : Nat) (h : n < fuel) :
    parseDigits (Nat.toDigitsCore 10 fuel n []) 0 = some n := by
  induction fuel generalizing n with
  | zero => omega
  | succ fuel ih =>
    simp only [Nat.toDigitsCore]
    have hd := digitValue_digitChar (n % 10) (Nat.mod_lt _ (by norm_num))
    by_cases h0 : n / 10 = 0
    · simp only [h0, if_true, parseDigits, hd]
      congr 1
      omega
    · simp only [h0, if_false]
      rw [toDigitsCore_append, parseDigits_append, ih (n / 10) (by omega)]
      simp only [Option.some_bind, parseDigits, hd]
      congr 1
      omega

theorem toDigitsCore_digits (fuel n : Nat) (ds : List Char)
    (hds : ∀ c ∈ ds, c.isDigit = true) :
    ∀ c ∈ Nat.toDigitsCore 10 fuel n ds, c.isDigit = true := by
  induction fuel generalizing n ds with
  | zero => simpa [Nat.toDigitsCore] using hds
  | succ fuel ih =>
    have hd := isDigit_digitChar (n % 10) (Nat.mod_lt _ (by norm_num))
    have hcons : ∀ c ∈ Nat.digitChar (n % 10) :: ds, c.isDigit = true := by
      intro c hc
      rcases List.mem_cons.mp hc with hc | hc
      · rw [hc]; exact hd
      · exact hds c hc
    simp only [Nat.toDigitsCore]
    by_cases h0 : n / 10 = 0
    · simpa only [h0, if_true] using hcons
    · simp only [h0, if_false]
      exact ih (n / 10) _ hcons

theorem toDigits_ne_nil (n : Nat) : Nat.toDigits 10 n ≠ [] := by
  simp only [Nat.toDigits, Nat.toDigitsCore]
  by_cases h0 : n / 10 = 0
  · simp [h0]
  · simp only [h0, if_false]
    rw [toDigitsCore_append]
    simp

theorem parseSigned_toDigits (n : Nat) :
    parseSigned (Nat.toDigits 10 n) = some (n : Int) := by
  have hp : parseDigits (Nat.toDigits 10 n) 0 = some n :=
    parseDigits_toDigitsCore (n + 1) n (by omega)
  have hall : ∀ c ∈ Nat.toDigits 10 n, c.isDigit = true :=
    toDigitsCore_digits (n + 1) n [] (by simp)
  cases hl : Nat.toDigits 10 n with
  | nil => exact absurd hl (toDigits_ne_nil n)
  | cons c ds =>
    rw [hl] at hp hall
    have hc : c.isDigit = true := hall c (List.mem_cons_self _ _)
    have h1 : c ≠ '-' := by
      intro e; rw [e] at hc; exact absurd hc (by decide)
    have h2 : c ≠ '+' := by
      intro e; rw [e] at hc; exact absurd hc (by decide)
    simp only [parseSigned, if_neg h1, if_neg h2, hp, Option.map_some']

theorem parseSigned_neg_toDigits (n : Nat) :
    parseSigned ('-' :: Nat.toDigits 10 n) = some (-(n : Int)) := by
  have hp : parseDigits (Nat.toDigits 10 n) 0 = some n :=
    parseDigits_toDigitsCore (n + 1) n (by omega)
  simp only [parseSigned, if_true, if_neg (toDigits_ne_nil n), hp, Option.map_some']

end Strconv

namespace Strconv

theorem data_Itoa_ofNat (n : Nat) : (Mappers.Itoa (n : Int)).data = Nat.toDigits 10 n := rfl

theorem data_Itoa_negSucc (n : Nat) :
    (Mappers.Itoa (Int.negSucc n)).data = '-' :: Nat.toDigits 10 (n + 1) := by
  show ("-" ++ Nat.repr (n + 1)).data = _
  rw [String.data_append]
  rfl

theorem Atoi_Itoa (n : Int) (h : InRange n) : Atoi (Mappers.Itoa n) = (n, true) := by
  obtain ⟨hlo, hhi⟩ := h
  have hparse : parseSigned (Mappers.Itoa n).data = some n := by
    cases n with
    | ofNat m => rw [Int.ofNat_eq_coe, data_Itoa_ofNat]; exact parseSigned_toDigits m
    | negSucc m =>
      rw [data_Itoa_negSucc, parseSigned_neg_toDigits]
      rfl
  simp only [Atoi, hparse]
  rw [if_neg (not_lt.mpr hhi), if_neg (not_lt.mpr hlo)]

end Strconv

namespace Mappers

theorem maxIdxLoop_cons (p : Int × Int) (rest : GoMap) (a : Int) :
    maxIdxLoop (p :: rest) a = maxIdxLoop rest (max a p.2) := by
  obtain ⟨k, v⟩ := p
  by_cases h : v > a
  · simp only [maxIdxLoop, if_pos h]
    rw [max_eq_right (le_of_lt h)]
  · simp only [maxIdxLoop, if_neg h]
    rw [max_eq_left (not_lt.mp h)]

theorem maxIdxLoop_perm (m₁ m₂ : GoMap) (h : m₁.Perm m₂) (a : Int) :
    maxIdxLoop m₁ a = maxIdxLoop m₂ a := by
  induction h generalizing a with
  | nil => rfl
  | cons x _ ih => rw [maxIdxLoop_cons, maxIdxLoop_cons, ih]
  | swap x y l =>
    simp only [maxIdxLoop_cons]
    congr 1
    omega
  | trans _ _ ih₁ ih₂ => rw [ih₁, ih₂]

theorem maxIdxLoop_append_single (m : GoMap) (k v a : Int) :
    maxIdxLoop (m ++ [(k, v)]) a = max (maxIdxLoop m a) v := by
  induction m generalizing a with
  | nil =>
    rw [List.nil_append, maxIdxLoop_cons]
    rfl
  | cons p rest ih => rw [List.cons_append, maxIdxLoop_cons, maxIdxLoop_cons, ih]

theorem watermark_GetOrCreate (s : IDMapper) (id : Int)
    (h : s.nextIdx = maxIdxLoop s.mapping (-1) + 1) :
    (s.GetOrCreate id).2.nextIdx = maxIdxLoop (s.GetOrCreate id).2.mapping (-1) + 1 := by
  cases hl : s.mapping.lookup id with
  | some v => rw [GetOrCreate_of_some s id v hl]; exact h
  | none =>
    rw [GetOrCreate_of_none s id hl]
    simp only [maxIdxLoop_append_single]
    omega

theorem watermark_run (s : IDMapper) (cs : List Call)
    (h : s.nextIdx = maxIdxLoop s.mapping (-1) + 1) :
    (run s cs).nextIdx = maxIdxLoop (run s cs).mapping (-1) + 1 := by
  induction cs generalizing s with
  | nil => exact h
  | cons c cs ih =>
    refine ih _ ?_
    rcases call_state s c with e | ⟨id, _, e⟩
    · rw [e]; exact h
    · rw [e]; exact watermark_GetOrCreate s id h

theorem wf_run (s : IDMapper) (cs : List Call) (h : s.mapping.WF) : (run s cs).mapping.WF := by
  induction cs generalizing s with
  | nil => exact h
  | cons c cs ih =>
    refine ih _ ?_
    rcases call_state s c with e | ⟨id, _, e⟩
    · rw [e]; exact h
    · rw [e]; exact wf_GetOrCreate s id h

theorem lookup_eq_none_of_wf_append (acc rest : GoMap) (id idx : Int)
    (hwf : GoMap.WF (acc ++ (id, idx) :: rest)) : acc.lookup id = none := by
  rw [GoMap.lookup_eq_none_iff]
  intro hmem
  simp only [GoMap.WF, GoMap.keys, List.map_append, List.map_cons] at hwf hmem
  rw [List.nodup_append] at hwf
  exact hwf.2.2 hmem (List.mem_cons_self _ _)

theorem copyLoop_eq_append (m acc : GoMap) (hwf : GoMap.WF (acc ++ m)) :
    IDMapper.copyLoop m acc = acc ++ m := by
  induction m generalizing acc with
  | nil => simp [IDMapper.copyLoop]
  | cons p rest ih =>
    obtain ⟨k, v⟩ := p
    have hnone := lookup_eq_none_of_wf_append acc rest k v hwf
    have hstep : acc ++ (k, v) :: rest = (acc ++ [(k, v)]) ++ rest := by simp
    simp only [IDMapper.copyLoop, GoMap.set_of_lookup_eq_none acc k v hnone]
    rw [ih (acc ++ [(k, v)]) (by rw [← hstep]; exact hwf), hstep]

theorem GetMapping_eq_mapping (s : IDMapper) (hwf : s.mapping.WF) :
    s.GetMapping = s.mapping := by
  have := copyLoop_eq_append s.mapping [] (by simpa using hwf)
  simpa [IDMapper.GetMapping] using this

theorem loadRows_records (items acc : GoMap) (hwf : GoMap.WF (acc ++ items))
    (hr : ∀ p ∈ items, Strconv.InRange p.1 ∧ Strconv.InRange p.2) :
    loadRows (items.map record) acc = acc ++ items := by
  induction items generalizing acc with
  | nil => simp [loadRows]
  | cons p rest ih =>
    obtain ⟨k, v⟩ := p
    have hnone := lookup_eq_none_of_wf_append acc rest k v hwf
    have hkv := hr (k, v) (List.mem_cons_self _ _)
    have hstep : acc ++ (k, v) :: rest = (acc ++ [(k, v)]) ++ rest := by simp
    simp only [List.map_cons, record, loadRows, Strconv.Atoi_Itoa k hkv.1,
      Strconv.Atoi_Itoa v hkv.2, GoMap.set_of_lookup_eq_none acc k v hnone]
    rw [ih (acc ++ [(k, v)]) (by rw [← hstep]; exact hwf)
      (fun p hp => hr p (List.mem_cons_of_mem _ hp)), hstep]

theorem wf_of_perm (m₁ m₂ : GoMap) (h : m₁.Perm m₂) (hwf : m₂.WF) : m₁.WF :=
  (h.map Prod.fst).symm.nodup hwf

theorem lookup_eq_some_of_mem (m : GoMap) (hwf : m.WF) (id v : Int) (h : (id, v) ∈ m) :
    m.lookup id = some v := by
  induction m with
  | nil => cases h
  | cons p rest ih =>
    obtain ⟨k, w⟩ := p
    simp only [GoMap.WF, GoMap.keys, List.map_cons, List.nodup_cons] at hwf
    rcases List.mem_cons.mp h with e | hmem
    · cases e
      simp [GoMap.lookup]
    · have hk : k ≠ id := by
        intro e
        apply hwf.1
        rw [e]
        exact List.mem_map_of_mem Prod.fst hmem
      simp only [GoMap.lookup, if_neg hk]
      exact ih hwf.2 hmem

theorem lookup_perm (m₁ m₂ : GoMap) (h : m₁.Perm m₂) (hwf : m₂.WF) (id : Int) :
    m₁.lookup id = m₂.lookup id := by
  have hwf₁ := wf_of_perm m₁ m₂ h hwf
  cases h₂ : m₂.lookup id with
  | some v =>
    exact lookup_eq_some_of_mem m₁ hwf₁ id v
      (h.symm.subset (GoMap.mem_of_lookup_eq_some _ _ _ h₂))
  | none =>
    cases h₁ : m₁.lookup id with
    | none => rfl
    | some v =>
      have := lookup_eq_some_of_mem m₂ hwf id v
        (h.subset (GoMap.mem_of_lookup_eq_some _ _ _ h₁))
      rw [h₂] at this
      cases this

theorem load_save_eq_sorted (srt : List (Int × Int) → List (Int × Int))
    (hsrt : SortsByIdx srt) (m : GoMap) (hwf : m.WF)
    (hr : ∀ p ∈ m, Strconv.InRange p.1 ∧ Strconv.InRange p.2) :
    LoadItemMap (SaveItemMap srt m) = srt m ∧ LoadUserMap (SaveUserMap srt m) = srt m := by
  have hperm := (hsrt m).1
  have hload : loadRows ((srt m).map record) [] = srt m := by
    have := loadRows_records (srt m) [] (by simpa using wf_of_perm _ _ hperm hwf)
      (fun p hp => hr p (hperm.subset hp))
    simpa using this
  simp only [LoadItemMap, LoadUserMap, SaveItemMap, SaveUserMap, collect_eq_append,
    List.nil_append, List.tail_cons, hload, and_self]

end Mappers

/-! ## Round trip of a persisted mapping, and when `main` persists -/

namespace Mappers

/-- With exact counting: for a mapper reached from `NewIDMapper(seed)` (seed a well-formed
map, all ids and indices Go `int` values), saving `GetMapping()` with
`SaveItemMap` or `SaveUserMap` and reading the table back (header skipped, the
two decimal fields of each row parsed as integers) yields the same map: the
same entries, hence the same index for every id; and `NewIDMapper` over the
reloaded map has the `nextIdx` of the mapper whose map was saved. -/
theorem save_then_load_round_trip (srt : List (Int × Int) → List (Int × Int))
    (hsrt : SortsByIdx srt) (seed : GoMap) (cs : List Call) (hwf : seed.WF)
    (hrange : ∀ p ∈ (run (NewIDMapper seed) cs).mapping,
      Strconv.InRange p.1 ∧ Strconv.InRange p.2) :
    (LoadItemMap (SaveItemMap srt (run (NewIDMapper seed) cs).GetMapping)).Perm
        (run (NewIDMapper seed) cs).mapping
    ∧ (∀ id, (LoadItemMap (SaveItemMap srt (run (NewIDMapper seed) cs).GetMapping)).lookup id
        = (run (NewIDMapper seed) cs).mapping.lookup id)
    ∧ (NewIDMapper (LoadItemMap (SaveItemMap srt (run (NewIDMapper seed) cs).GetMapping))).nextIdx
        = (run (NewIDMapper seed) cs).nextIdx
    ∧ LoadUserMap (SaveUserMap srt (run (NewIDMapper seed) cs).GetMapping)
        = LoadItemMap (SaveItemMap srt (run (NewIDMapper seed) cs).GetMapping) := by
  have hwf' : (run (NewIDMapper seed) cs).mapping.WF := wf_run _ cs hwf
  have hget := GetMapping_eq_mapping _ hwf'
  obtain ⟨hitem, huser⟩ := load_save_eq_sorted srt hsrt _ hwf' hrange
  have hperm := (hsrt (run (NewIDMapper seed) cs).mapping).1
  rw [hget, hitem, huser]
  refine ⟨hperm, fun id => lookup_perm _ _ hperm hwf' id, ?_, rfl⟩
  rw [watermark_run (NewIDMapper seed) cs rfl]
  show maxIdxLoop (srt (run (NewIDMapper seed) cs).mapping) (-1) + 1 = _
  rw [maxIdxLoop_perm _ _ hperm]

theorem save_then_load_round_trip_witness :
    SortsByIdx sortSliceByIdx
    ∧ GoMap.WF [(10, 1), (20, 0)]
    ∧ SaveItemMap sortSliceByIdx
        (run (NewIDMapper [(10, 1), (20, 0)]) [Call.getOrCreate 30]).GetMapping
        = [["movieId", "iIdx"], ["20", "0"], ["10", "1"], ["30", "2"]]
    ∧ LoadItemMap [["movieId", "iIdx"], ["20", "0"], ["10", "1"], ["30", "2"]]
        = [(20, 0), (10, 1), (30, 2)]
    ∧ (NewIDMapper (LoadItemMap (SaveItemMap sortSliceByIdx
        (run (NewIDMapper [(10, 1), (20, 0)]) [Call.getOrCreate 30]).GetMapping))).nextIdx
        = (run (NewIDMapper [(10, 1), (20, 0)]) [Call.getOrCreate 30]).nextIdx :=
  have hwf : GoMap.WF [(10, 1), (20, 0)] := by simp [GoMap.WF, GoMap.keys]
  have hmap : (run (NewIDMapper [(10, 1), (20, 0)]) [Call.getOrCreate 30]).mapping
      = [(10, 1), (20, 0), (30, 2)] := by decide
  have hrange : ∀ p ∈ (run (NewIDMapper [(10, 1), (20, 0)]) [Call.getOrCreate 30]).mapping,
      Strconv.InRange p.1 ∧ Strconv.InRange p.2 := by
    rw [hmap]
    intro p hp
    simp only [List.mem_cons, List.mem_singleton, List.not_mem_nil, or_false] at hp
    rcases hp with e | e | e <;> subst e <;>
      simp [Strconv.InRange, Strconv.minInt, Strconv.maxInt]
  ⟨sortsByIdx_sortSliceByIdx, hwf, by decide, by decide,
   (save_then_load_round_trip sortSliceByIdx sortsByIdx_sortSliceByIdx [(10, 1), (20, 0)]
      [Call.getOrCreate 30] hwf hrange).2.2.1⟩

/-- C12: in the persistence step of `main`, `item_map.csv` is written (by
`SaveItemMap` on `itemMapper.GetMapping()`) if and only if the update-mappings
option is set and `itemMapper.HasChanged()`; `user_map.csv` is written (by
`SaveUserMap` on `userMapper.GetMapping()`) if and only if the option is set
and `userMapper.HasChanged()`.  With the option unset nothing is written, and
a mapper on which no `GetOrCreate` call had an id outside its seed has no file
written. -/
theorem mappings_persisted_iff_opted_in_and_changed
    (srt : List (Int × Int) → List (Int × Int)) (updateMappings : Bool)
    (itemMapper userMapper : IDMapper) :
    ((persistMappings srt updateMappings itemMapper userMapper).itemMapCsv
        = (if updateMappings = true ∧ itemMapper.HasChanged = true
            then some (SaveItemMap srt itemMapper.GetMapping) else none))
    ∧ ((persistMappings srt updateMappings itemMapper userMapper).userMapCsv
        = (if updateMappings = true ∧ userMapper.HasChanged = true
            then some (SaveUserMap srt userMapper.GetMapping) else none))
    ∧ ((persistMappings srt updateMappings itemMapper userMapper).itemMapCsv ≠ none
        ↔ updateMappings = true ∧ itemMapper.HasChanged = true)
    ∧ ((persistMappings srt updateMappings itemMapper userMapper).userMapCsv ≠ none
        ↔ updateMappings = true ∧ userMapper.HasChanged = true)
    ∧ (∀ seed cs, (∀ id, Call.getOrCreate id ∈ cs → id ∈ GoMap.keys seed) →
        (persistMappings srt updateMappings (run (NewIDMapper seed) cs) userMapper).itemMapCsv
          = none)
    ∧ (∀ seed cs, (∀ id, Call.getOrCreate id ∈ cs → id ∈ GoMap.keys seed) →
        (persistMappings srt updateMappings itemMapper (run (NewIDMapper seed) cs)).userMapCsv
          = none) := by
  have hquiet : ∀ seed cs, (∀ id, Call.getOrCreate id ∈ cs → id ∈ GoMap.keys seed) →
      (run (NewIDMapper seed) cs).HasChanged = false := by
    intro seed cs hseen
    cases hch : (run (NewIDMapper seed) cs).HasChanged with
    | false => rfl
    | true =>
      exfalso
      rcases (changed_run (NewIDMapper seed) cs).mp hch with h | ⟨id, hmem, hid⟩
      · simp [NewIDMapper] at h
      · exact hid (hseen id hmem)
  refine ⟨?_, ?_, ?_, ?_, ?_, ?_⟩
  · cases updateMappings <;> cases hi : itemMapper.HasChanged <;> simp [persistMappings, hi]
  · cases updateMappings <;> cases hu : userMapper.HasChanged <;> simp [persistMappings, hu]
  · cases updateMappings <;> cases hi : itemMapper.HasChanged <;> simp [persistMappings, hi]
  · cases updateMappings <;> cases hu : userMapper.HasChanged <;> simp [persistMappings, hu]
  · intro seed cs hseen
    cases updateMappings <;> simp [persistMappings, hquiet seed cs hseen]
  · intro seed cs hseen
    cases updateMappings <;> simp [persistMappings, hquiet seed cs hseen]

theorem mappings_persisted_iff_opted_in_and_changed_witness :
    (∀ id, Call.getOrCreate id ∈ [Call.getOrCreate 10, Call.get 99] →
        id ∈ GoMap.keys [(10, 0), (20, 1)])
    ∧ (persistMappings sortSliceByIdx true
        (run (NewIDMapper [(10, 0), (20, 1)]) [Call.getOrCreate 10, Call.get 99])
        (run (NewIDMapper []) [Call.getOrCreate 7])).itemMapCsv = none
    ∧ (persistMappings sortSliceByIdx true
        (run (NewIDMapper [(10, 0), (20, 1)]) [Call.getOrCreate 10, Call.get 99])
        (run (NewIDMapper []) [Call.getOrCreate 7])).userMapCsv
        = some [["userId", "uIdx"], ["7", "0"]] :=
  have hseen : ∀ id, Call.getOrCreate id ∈ [Call.getOrCreate 10, Call.get 99] →
      id ∈ GoMap.keys [(10, 0), (20, 1)] := by
    intro id h
    simp only [List.mem_cons, Call.getOrCreate.injEq, List.mem_singleton, List.not_mem_nil,
      or_false] at h
    rcases h with h | h
    · subst h; simp [GoMap.keys]
    · cases h
  ⟨hseen,
   (mappings_persisted_iff_opted_in_and_changed sortSliceByIdx true
      (run (NewIDMapper [(10, 0), (20, 1)]) [Call.getOrCreate 10, Call.get 99])
      (run (NewIDMapper []) [Call.getOrCreate 7])).2.2.2.2.1 [(10, 0), (20, 1)]
      [Call.getOrCreate 10, Call.get 99] hseen,
   by decide⟩

end Mappers

/-! ## Lemmas on strings and on the year pattern -/

namespace Strings

theorem isDigit_iff (c : Char) : c.isDigit = true ↔ 48 ≤ c.toNat ∧ c.toNat ≤ 57 := by
  simp only [Char.isDigit, Bool.and_eq_true, decide_eq_true_eq, Char.toNat]
  constructor
  · rintro ⟨h1, h2⟩
    exact ⟨h1, h2⟩
  · rintro ⟨h1, h2⟩
    exact ⟨h1, h2⟩

theorem isSpace_of_isReSpace (c : Char) (h : YearRe.isReSpace c = true) : isSpace c = true := by
  simp only [YearRe.isReSpace, Bool.or_eq_true, beq_iff_eq] at h
  simp only [isSpace, Bool.or_eq_true, Bool.and_eq_true, decide_eq_true_eq, beq_iff_eq]
  omega

theorem getLast_of_eq_concat (x pre : List Char) (c : Char) (hx : x = pre ++ [c])
    (hne : x ≠ []) : x.getLast hne = c := by
  subst hx
  simp

theorem trim_last_not_space (l pre : List Char) (c : Char)
    (h : trimSpaceChars l = pre ++ [c]) : isSpace c = false := by
  have hne : (l.dropWhile isSpace).rdropWhile isSpace ≠ [] := by
    intro e
    simp [trimSpaceChars, e] at h
  have hlast := List.rdropWhile_last_not isSpace (l.dropWhile isSpace) hne
  have hc : ((l.dropWhile isSpace).rdropWhile isSpace).getLast hne = c :=
    getLast_of_eq_concat _ pre c h hne
  rw [hc] at hlast
  simpa using hlast

theorem trim_head_not_space (l rest : List Char) (c : Char)
    (h : trimSpaceChars l = c :: rest) : isSpace c = false := by
  obtain ⟨t, ht⟩ := List.rdropWhile_prefix isSpace (l := l.dropWhile isSpace)
  have h' : (l.dropWhile isSpace).rdropWhile isSpace = c :: rest := h
  rw [h'] at ht
  have hne : l.dropWhile isSpace ≠ [] := by
    intro e
    rw [e] at ht
    cases ht
  have hhead := List.head_dropWhile_not isSpace l hne
  have : (l.dropWhile isSpace).head hne = c := by
    simp only [← ht, List.cons_append, List.head_cons]
  rw [this] at hhead
  exact hhead

theorem trim_of_clean (l : List Char)
    (hhead : ∀ c rest, l = c :: rest → isSpace c = false)
    (hlast : ∀ pre c, l = pre ++ [c] → isSpace c = false) : trimSpaceChars l = l := by
  have hdrop : l.dropWhile isSpace = l := by
    cases l with
    | nil => rfl
    | cons c rest =>
      have := hhead c rest rfl
      simp [List.dropWhile_cons, this]
  simp only [trimSpaceChars, hdrop]
  rw [List.rdropWhile_eq_self_iff]
  intro hl
  have hsplit := (List.dropLast_append_getLast hl).symm
  have := hlast _ _ hsplit
  simp [this]

theorem trim_idem (l : List Char) : trimSpaceChars (trimSpaceChars l) = trimSpaceChars l :=
  trim_of_clean _ (fun c rest h => trim_head_not_space l rest c h)
    (fun pre c h => trim_last_not_space l pre c h)

theorem TrimSpace_idem (s : String) : TrimSpace (TrimSpace s) = TrimSpace s := by
  simp only [TrimSpace, trim_idem]

end Strings

namespace YearRe

theorem matchHere_eq_some (l g : List Char) :
    matchHere l = some g ↔
      ∃ a b c d rest, l = '(' :: a :: b :: c :: d :: ')' :: rest
        ∧ a.isDigit = true ∧ b.isDigit = true ∧ c.isDigit = true ∧ d.isDigit = true
        ∧ rest.all isReSpace = true ∧ g = [a, b, c, d] := by
  constructor
  · intro h
    unfold matchHere at h
    split at h
    · split at h
      · rename_i hc
        obtain ⟨h0, ha, hb, hc', hd, h5, hrest⟩ := hc
        cases h
        subst h0 h5
        exact ⟨_, _, _, _, _, rfl, ha, hb, hc', hd, hrest, rfl⟩
      · cases h
    · cases h
  · rintro ⟨a, b, c, d, rest, rfl, ha, hb, hc, hd, hrest, rfl⟩
    simp only [matchHere, isReDigit, ha, hb, hc, hd, hrest, and_self, if_true]

theorem find_sound (l w g : List Char) (h : find l = some (w, g)) :
    ∃ pre, l = pre ++ w ∧ matchHere w = some g := by
  induction l with
  | nil => simp [find] at h
  | cons c cs ih =>
    simp only [find] at h
    cases hm : matchHere (c :: cs) with
    | some g' =>
      simp only [hm, Option.some.injEq, Prod.mk.injEq] at h
      obtain ⟨hw, hg⟩ := h
      subst hw hg
      exact ⟨[], rfl, hm⟩
    | none =>
      simp only [hm] at h
      obtain ⟨pre, hpre, hmw⟩ := ih h
      exact ⟨c :: pre, by rw [hpre]; rfl, hmw⟩

theorem find_complete (pre w g : List Char) (h : matchHere w = some g) :
    find (pre ++ w) ≠ none := by
  induction pre with
  | nil =>
    cases w with
    | nil => simp [matchHere] at h
    | cons c cs => simp [find, h]
  | cons x pre ih =>
    simp only [List.cons_append, find]
    cases hm : matchHere (x :: (pre ++ w)) with
    | some g' => simp
    | none => simpa using ih

end YearRe

namespace Strings

theorem lastIndexChars_ge (c : Char) (l : List Char) : -1 ≤ lastIndexChars c l := by
  induction l with
  | nil => simp [lastIndexChars]
  | cons x xs ih =>
    simp only [lastIndexChars]
    split
    · omega
    · split <;> omega

theorem lastIndexChars_of_not_mem (c : Char) (l : List Char) (h : c ∉ l) :
    lastIndexChars c l = -1 := by
  induction l with
  | nil => rfl
  | cons x xs ih =>
    have hx : ¬ x = c := fun e => h (by rw [e]; exact List.mem_cons_self _ _)
    have hxs := ih (fun hm => h (List.mem_cons_of_mem _ hm))
    simp only [lastIndexChars, hxs, if_neg hx]
    rfl

theorem lastIndexChars_append (c : Char) (pre rest : List Char) (h : c ∉ rest) :
    lastIndexChars c (pre ++ c :: rest) = pre.length := by
  induction pre with
  | nil =>
    simp only [List.nil_append, lastIndexChars, lastIndexChars_of_not_mem c rest h]
    rfl
  | cons x pre ih =>
    have hstep : lastIndexChars c (x :: (pre ++ c :: rest))
        = if lastIndexChars c (pre ++ c :: rest) ≥ 0
            then lastIndexChars c (pre ++ c :: rest) + 1
            else if x = c then 0 else -1 := rfl
    rw [List.cons_append, hstep, ih, if_pos (by omega), List.length_cons]
    push_cast
    rfl

end Strings

namespace Strconv

theorem digitValue_of_isDigit (c : Char) (h : c.isDigit = true) :
    digitValue c = some (c.toNat - 48) ∧ 48 ≤ c.toNat ∧ c.toNat ≤ 57 := by
  have := (Strings.isDigit_iff c).mp h
  simp only [digitValue, h, if_true, true_and]
  exact this

theorem Atoi_four_digits (a b c d : Char) (ha : a.isDigit = true) (hb : b.isDigit = true)
    (hc : c.isDigit = true) (hd : d.isDigit = true) :
    Atoi (String.mk [a, b, c, d])
      = (1000 * Main.digitOf a + 100 * Main.digitOf b + 10 * Main.digitOf c + Main.digitOf d,
          true) := by
  obtain ⟨va, la, ua⟩ := digitValue_of_isDigit a ha
  obtain ⟨vb, lb, ub⟩ := digitValue_of_isDigit b hb
  obtain ⟨vc, lc, uc⟩ := digitValue_of_isDigit c hc
  obtain ⟨vd, ld, ud⟩ := digitValue_of_isDigit d hd
  have h1 : a ≠ '-' := by
    intro e; rw [e] at ha; exact absurd ha (by decide)
  have h2 : a ≠ '+' := by
    intro e; rw [e] at ha; exact absurd ha (by decide)
  have hparse : parseSigned [a, b, c, d]
      = some (1000 * Main.digitOf a + 100 * Main.digitOf b + 10 * Main.digitOf c
          + Main.digitOf d) := by
    simp only [parseSigned, if_neg h1, if_neg h2, parseDigits, va, vb, vc, vd,
      Option.map_some', Main.digitOf, Option.some.injEq]
    omega
  simp only [Atoi, hparse, Main.digitOf, maxInt, minInt]
  rw [if_neg (by omega), if_neg (by omega)]

end Strconv

namespace Main

theorem find_trimmed (l w g : List Char)
    (h : YearRe.find (Strings.trimSpaceChars l) = some (w, g)) :
    ∃ pre a b c d, Strings.trimSpaceChars l = pre ++ ['(', a, b, c, d, ')']
      ∧ a.isDigit = true ∧ b.isDigit = true ∧ c.isDigit = true ∧ d.isDigit = true
      ∧ w = ['(', a, b, c, d, ')'] ∧ g = [a, b, c, d] := by
  obtain ⟨pre, hpre, hm⟩ := YearRe.find_sound _ w g h
  obtain ⟨a, b, c, d, rest, hw, ha, hb, hc, hd, hrest, hg⟩ := (YearRe.matchHere_eq_some w g).mp hm
  have hnil : rest = [] := by
    by_contra hne
    have hsplit := (List.dropLast_append_getLast hne).symm
    have hz : YearRe.isReSpace (rest.getLast hne) = true :=
      List.all_eq_true.mp hrest _ (List.getLast_mem hne)
    have hsp := Strings.isSpace_of_isReSpace _ hz
    have hdecomp : Strings.trimSpaceChars l
        = (pre ++ '(' :: a :: b :: c :: d :: ')' :: rest.dropLast) ++ [rest.getLast hne] := by
      rw [hpre, hw]
      conv_lhs => rw [hsplit]
      simp
    have := Strings.trim_last_not_space l _ _ hdecomp
    rw [hsp] at this
    cases this
  subst hnil
  exact ⟨pre, a, b, c, d, by rw [hpre, hw], ha, hb, hc, hd, hw, hg⟩

theorem endsWithYear_unique (t pre₁ pre₂ : String) (y₁ y₂ : Int)
    (h₁ : EndsWithYear t pre₁ y₁) (h₂ : EndsWithYear t pre₂ y₂) : pre₁ = pre₂ ∧ y₁ = y₂ := by
  obtain ⟨a, b, c, d, ht, _, _, _, _, hy⟩ := h₁
  obtain ⟨a', b', c', d', ht', _, _, _, _, hy'⟩ := h₂
  rw [ht] at ht'
  obtain ⟨hp, hg⟩ := List.append_inj' ht' rfl
  simp only [List.cons.injEq, and_true, true_and] at hg
  obtain ⟨e1, e2, e3, e4⟩ := hg
  subst e1 e2 e3 e4
  exact ⟨String.ext hp, by rw [hy, hy']⟩

theorem parse_of_not_endsWithYear (raw : String)
    (h : ¬ ∃ pre y, EndsWithYear (Strings.TrimSpace raw) pre y) :
    parseTitleAndYear raw = (Strings.TrimSpace raw, none) := by
  have hfind : YearRe.find (Strings.TrimSpace raw).data = none := by
    cases hf : YearRe.find (Strings.TrimSpace raw).data with
    | none => rfl
    | some r =>
      exfalso
      obtain ⟨w, g⟩ := r
      obtain ⟨pre, a, b, c, d, ht, ha, hb, hc, hd, _, _⟩ := find_trimmed raw.data w g hf
      exact h ⟨String.mk pre, _, a, b, c, d, ht, ha, hb, hc, hd, rfl⟩
  simp only [parseTitleAndYear, YearRe.FindStringSubmatch, hfind]

theorem parse_of_endsWithYear (raw pre : String) (y : Int)
    (h : EndsWithYear (Strings.TrimSpace raw) pre y) :
    parseTitleAndYear raw
      = (if pre.data = [] then Strings.TrimSpace raw else Strings.TrimSpace pre, some y) := by
  obtain ⟨a, b, c, d, ht, ha, hb, hc, hd, hy⟩ := h
  have hm : YearRe.matchHere ['(', a, b, c, d, ')'] = some [a, b, c, d] :=
    (YearRe.matchHere_eq_some _ _).mpr ⟨a, b, c, d, [], rfl, ha, hb, hc, hd, rfl, rfl⟩
  have hsome : YearRe.find (Strings.TrimSpace raw).data
      = some (['(', a, b, c, d, ')'], [a, b, c, d]) := by
    cases hf : YearRe.find (Strings.TrimSpace raw).data with
    | none =>
      exfalso
      have := YearRe.find_complete pre.data _ _ hm
      rw [← ht] at this
      exact this hf
    | some r =>
      obtain ⟨w, g⟩ := r
      obtain ⟨pre', a', b', c', d', ht', _, _, _, _, hw, hg⟩ := find_trimmed raw.data w g hf
      have hdata : (Strings.TrimSpace raw).data = Strings.trimSpaceChars raw.data := rfl
      rw [← hdata, ht] at ht'
      obtain ⟨_, hgrp⟩ := List.append_inj' ht' rfl
      simp only [List.cons.injEq, and_true, true_and] at hgrp
      obtain ⟨e1, e2, e3, e4⟩ := hgrp
      subst e1 e2 e3 e4
      rw [hw, hg]
  have hatoi := Strconv.Atoi_four_digits a b c d ha hb hc hd
  rw [← hy] at hatoi
  have hnot : '(' ∉ [a, b, c, d, ')'] := by
    simp only [List.mem_cons, List.mem_singleton, List.not_mem_nil, or_false, not_or]
    refine ⟨?_, ?_, ?_, ?_, by decide⟩ <;>
      · intro e
        first
          | (rw [← e] at ha; exact absurd ha (by decide))
          | (rw [← e] at hb; exact absurd hb (by decide))
          | (rw [← e] at hc; exact absurd hc (by decide))
          | (rw [← e] at hd; exact absurd hd (by decide))
  have hidx : Strings.LastIndex (Strings.TrimSpace raw) '(' = pre.data.length := by
    simp only [Strings.LastIndex, ht]
    exact Strings.lastIndexChars_append '(' pre.data _ hnot
  have hslice : Strings.sliceTo (Strings.TrimSpace raw) (pre.data.length : Int) = pre := by
    apply String.ext
    simp only [Strings.sliceTo, ht, Int.toNat_ofNat, List.take_left']
  simp only [parseTitleAndYear, YearRe.FindStringSubmatch, hsome, hatoi, hidx]
  by_cases hp : pre.data = []
  · simp only [hp, List.length_nil, Nat.cast_zero, lt_self_iff_false, if_false, if_true,
      Strings.TrimSpace_idem]
  · have hpos : (pre.data.length : Int) > 0 := by
      have := List.length_pos.mpr hp
      omega
    simp only [hp, if_false, hpos, if_true, hslice]

end Main

/-! ## Title and year -/

namespace Main

/-- C13: `parseTitleAndYear` returns the year `y` if and only if the title,
trimmed of surrounding white space, ends with a parenthesized group of exactly
four decimal digits that write `y`; a year returned lies between 0 and 9999;
no year is returned exactly when the trimmed title has no such ending.  The
three titles of the specification behave as stated. -/
theorem year_iff_trailing_four_digit_group (raw : String) (y : Int) :
    ((parseTitleAndYear raw).2 = some y
        ↔ ∃ pre, EndsWithYear (Strings.TrimSpace raw) pre y)
    ∧ ((parseTitleAndYear raw).2 = some y → 0 ≤ y ∧ y ≤ 9999)
    ∧ ((parseTitleAndYear raw).2 = none
        ↔ ¬ ∃ pre y', EndsWithYear (Strings.TrimSpace raw) pre y')
    ∧ (parseTitleAndYear "Toy Story (1995)").2 = some 1995
    ∧ (parseTitleAndYear "Nested (Extra) (2001)").2 = some 2001
    ∧ (parseTitleAndYear "Title With (Parens) But No Year").2 = none := by
  have hiff : (parseTitleAndYear raw).2 = some y
      ↔ ∃ pre, EndsWithYear (Strings.TrimSpace raw) pre y := by
    constructor
    · intro h
      by_cases hex : ∃ pre y', EndsWithYear (Strings.TrimSpace raw) pre y'
      · obtain ⟨pre, y', hy'⟩ := hex
        rw [parse_of_endsWithYear raw pre y' hy'] at h
        simp only [Option.some.injEq] at h
        exact ⟨pre, h ▸ hy'⟩
      · rw [parse_of_not_endsWithYear raw hex] at h
        cases h
    · rintro ⟨pre, h⟩
      rw [parse_of_endsWithYear raw pre y h]
  refine ⟨hiff, ?_, ?_, by decide, by decide, by decide⟩
  · intro h
    obtain ⟨pre, a, b, c, d, _, ha, hb, hc, hd, hy⟩ := hiff.mp h
    have ra := (Strings.isDigit_iff a).mp ha
    have rb := (Strings.isDigit_iff b).mp hb
    have rc := (Strings.isDigit_iff c).mp hc
    have rd := (Strings.isDigit_iff d).mp hd
    simp only [digitOf] at hy
    omega
  · constructor
    · rintro h ⟨pre, y', hy'⟩
      rw [parse_of_endsWithYear raw pre y' hy'] at h
      cases h
    · intro h
      rw [parse_of_not_endsWithYear raw h]

theorem year_iff_trailing_four_digit_group_witness :
    (parseTitleAndYear "  Se7en (1995) ").2 = some 1995
    ∧ (0 : Int) ≤ 1995 ∧ (1995 : Int) ≤ 9999 :=
  ⟨by decide,
   (year_iff_trailing_four_digit_group "  Se7en (1995) " 1995).2.1 (by decide)⟩

/-- C14, at a title that is the year group alone: `"(1995)"` ends with the
group and the text before the group is empty, yet the title returned is
`"(1995)"`, group included (the branch taken when `idx > 0` fails). -/
theorem title_of_bare_year_group_keeps_group :
    EndsWithYear (Strings.TrimSpace "(1995)") "" 1995
    ∧ parseTitleAndYear "(1995)" = ("(1995)", some 1995)
    ∧ (parseTitleAndYear "(1995)").1 ≠ Strings.TrimSpace "" :=
  ⟨⟨'1', '9', '9', '5', by decide, by decide, by decide, by decide, by decide, by decide⟩,
   by decide, by decide⟩

/-- C14, amended: when the trimmed title is a non-empty text `pre` followed by
a parenthesized 4-digit group, the title returned is `pre` trimmed (the text
before the last group, without the group) and the year is the group's number;
when the trimmed title is the group alone, the title returned is the trimmed
title itself. -/
theorem title_is_trimmed_text_before_group (raw pre : String) (y : Int)
    (h : EndsWithYear (Strings.TrimSpace raw) pre y) :
    (pre.data ≠ [] → parseTitleAndYear raw = (Strings.TrimSpace pre, some y))
    ∧ (pre.data = [] → parseTitleAndYear raw = (Strings.TrimSpace raw, some y))
    ∧ (parseTitleAndYear "Toy Story (1995)").1 = "Toy Story"
    ∧ (parseTitleAndYear "Nested (Extra) (2001)").1 = "Nested (Extra)" := by
  have hp := parse_of_endsWithYear raw pre y h
  refine ⟨?_, ?_, by decide, by decide⟩
  · intro hne
    rw [hp, if_neg hne]
  · intro he
    rw [hp, if_pos he]

theorem title_is_trimmed_text_before_group_witness :
    EndsWithYear (Strings.TrimSpace " Nested (Extra)  (2001) ") "Nested (Extra)  " 2001
    ∧ parseTitleAndYear " Nested (Extra)  (2001) " = ("Nested (Extra)", some 2001) :=
  have h : EndsWithYear (Strings.TrimSpace " Nested (Extra)  (2001) ") "Nested (Extra)  " 2001 :=
    ⟨'2', '0', '0', '1', by decide, by decide, by decide, by decide, by decide, by decide⟩
  ⟨h, ((title_is_trimmed_text_before_group " Nested (Extra)  (2001) " "Nested (Extra)  " 2001
      h).1 (by decide)).trans (by decide)⟩

/-- C15, at a title with surrounding blanks: `" Heat "` has no year group, no
year is returned, and the title returned is `"Heat"`, not the raw input. -/
theorem title_without_year_is_trimmed_not_verbatim :
    (¬ ∃ pre y, EndsWithYear " Heat " pre y)
    ∧ (¬ ∃ pre y, EndsWithYear (Strings.TrimSpace " Heat ") pre y)
    ∧ parseTitleAndYear " Heat " = ("Heat", none)
    ∧ (parseTitleAndYear " Heat ").1 ≠ " Heat " := by
  refine ⟨?_, ?_, by decide, by decide⟩
  · rintro ⟨pre, y, a, b, c, d, ht, _⟩
    have hlast := congrArg List.getLast? ht
    have hl : (" Heat " : String).data.getLast? = some ' ' := by decide
    have hr : (pre.data ++ ['(', a, b, c, d, ')']).getLast? = some ')' := by simp
    rw [hl, hr] at hlast
    exact absurd hlast (by decide)
  · rintro ⟨pre, y, hy⟩
    have := parse_of_endsWithYear " Heat " pre y hy
    have hnone : (parseTitleAndYear " Heat ").2 = none := by decide
    rw [this] at hnone
    cases hnone

/-- C15, amended: when the trimmed title does not end with a parenthesized
4-digit group, no year is returned and the title returned is the raw title with
its surrounding white space removed; it is the raw title, character for
character, when that has no surrounding white space. -/
theorem title_without_year_is_trimmed_input (raw : String)
    (h : ¬ ∃ pre y, EndsWithYear (Strings.TrimSpace raw) pre y) :
    parseTitleAndYear raw = (Strings.TrimSpace raw, none)
    ∧ (Strings.TrimSpace raw = raw → parseTitleAndYear raw = (raw, none)) := by
  have hp := parse_of_not_endsWithYear raw h
  refine ⟨hp, ?_⟩
  intro he
  rw [hp, he]

theorem title_without_year_is_trimmed_input_witness :
    (¬ ∃ pre y, EndsWithYear (Strings.TrimSpace "Title With (Parens) But No Year") pre y)
    ∧ parseTitleAndYear "Title With (Parens) But No Year"
        = ("Title With (Parens) But No Year", none) :=
  have h : ¬ ∃ pre y,
      EndsWithYear (Strings.TrimSpace "Title With (Parens) But No Year") pre y := by
    rintro ⟨pre, y, hy⟩
    have := parse_of_endsWithYear "Title With (Parens) But No Year" pre y hy
    have hnone : (parseTitleAndYear "Title With (Parens) But No Year").2 = none := by decide
    rw [this] at hnone
    cases hnone
  ⟨h, (title_without_year_is_trimmed_input "Title With (Parens) But No Year" h).2 (by decide)⟩

end Main

/-! ## The converter: one document per record -/

namespace Main

theorem index_of_lt (row : List String) (i : Nat) (h : i < row.length) :
    index row i = some row[i] := by
  simp [index, List.getElem?_eq_getElem h]

theorem readMovieId_some (idx : StrMap) (row : List String) :
    ∃ mid, readMovieId idx row = some mid := by
  unfold readMovieId
  split
  · rename_i h
    simp only [Bool.and_eq_true, decide_eq_true_eq] at h
    rw [index_of_lt row _ h.2]
    exact ⟨_, rfl⟩
  · split
    · rename_i h
      rw [index_of_lt row 0 h]
      exact ⟨_, rfl⟩
    · exact ⟨0, rfl⟩

theorem readTitle_some (idx : StrMap) (row : List String) :
    ∃ t, readTitle idx row = some t := by
  unfold readTitle
  split
  · rename_i h
    simp only [Bool.and_eq_true, decide_eq_true_eq] at h
    exact ⟨_, index_of_lt row _ h.2⟩
  · split
    · rename_i h
      exact ⟨_, index_of_lt row 1 h⟩
    · exact ⟨"", rfl⟩

theorem readGenres_some (idx : StrMap) (row : List String) :
    ∃ g, readGenres idx row = some g := by
  unfold readGenres
  split
  · rename_i h
    simp only [Bool.and_eq_true, decide_eq_true_eq] at h
    exact ⟨_, index_of_lt row _ h.2⟩
  · split
    · rename_i h
      exact ⟨_, index_of_lt row 2 h⟩
    · exact ⟨"", rfl⟩

theorem processRow_some (idx : StrMap) (row : List String) (now : String) :
    ∃ mid titleRaw genresRaw, readMovieId idx row = some mid
      ∧ readTitle idx row = some titleRaw ∧ readGenres idx row = some genresRaw
      ∧ processRow idx row now = some
          { MovieID := mid
            Title := (parseTitleAndYear titleRaw).1
            Year := (parseTitleAndYear titleRaw).2
            Genres := parseGenres genresRaw
            CreatedAt := now } := by
  obtain ⟨mid, hm⟩ := readMovieId_some idx row
  obtain ⟨t, ht⟩ := readTitle_some idx row
  obtain ⟨g, hg⟩ := readGenres_some idx row
  exact ⟨mid, t, g, hm, ht, hg, by simp only [processRow, hm, ht, hg]⟩

theorem processLoop_spec (clock : Nat → String) (idx : StrMap) (reads : List ReadResult)
    (written : Nat) (out : List MovieDoc) :
    ∃ docs, processLoop clock idx reads written out
        = some (written + (recordsOf reads).length, out ++ docs)
      ∧ docs.length = (recordsOf reads).length
      ∧ ∀ i row, (recordsOf reads)[i]? = some row →
          ∃ doc, docs[i]? = some doc ∧ processRow idx row (clock (written + i)) = some doc := by
  induction reads generalizing written out with
  | nil => exact ⟨[], by simp [processLoop, recordsOf], rfl, by simp [recordsOf]⟩
  | cons r rest ih =>
    cases r with
    | malformed =>
      obtain ⟨docs, h1, h2, h3⟩ := ih written out
      exact ⟨docs, by simpa only [processLoop, recordsOf] using h1, h2, h3⟩
    | record row =>
      obtain ⟨doc₀, hdoc⟩ : ∃ doc, processRow idx row (clock written) = some doc := by
        obtain ⟨mid, t, g, _, _, _, h⟩ := processRow_some idx row (clock written)
        exact ⟨_, h⟩
      obtain ⟨docs, h1, h2, h3⟩ := ih (written + 1) (out ++ [doc₀])
      refine ⟨doc₀ :: docs, ?_, ?_, ?_⟩
      · simp only [processLoop, hdoc, h1, recordsOf, List.length_cons, List.append_assoc,
          List.singleton_append]
        congr 2
        omega
      · simp only [List.length_cons, h2, recordsOf]
      · intro i row' hi
        cases i with
        | zero =>
          simp only [recordsOf, List.getElem?_cons_zero, Option.some.injEq] at hi
          subst hi
          exact ⟨doc₀, by simp, hdoc⟩
        | succ j =>
          simp only [recordsOf, List.getElem?_cons_succ] at hi
          obtain ⟨doc, hd1, hd2⟩ := h3 j row' hi
          refine ⟨doc, by simpa using hd1, ?_⟩
          have harith : written + (j + 1) = written + 1 + j := by omega
          rw [harith]
          exact hd2

theorem processMovies_spec (clock : Nat → String) (header : List String)
    (reads : List ReadResult) :
    ∃ docs, processMovies clock (ReadResult.record header :: reads)
        = Outcome.ok (recordsOf reads).length docs
      ∧ docs.length = (recordsOf reads).length
      ∧ ∀ i row, (recordsOf reads)[i]? = some row →
          ∃ doc, docs[i]? = some doc
            ∧ processRow (buildIdx header 0 []) row (clock i) = some doc := by
  obtain ⟨docs, h1, h2, h3⟩ := processLoop_spec clock (buildIdx header 0 []) reads 0 []
  refine ⟨docs, ?_, h2, ?_⟩
  · simp only [processMovies, h1, Nat.zero_add, List.nil_append]
  · intro i row hi
    obtain ⟨doc, hd1, hd2⟩ := h3 i row hi
    exact ⟨doc, hd1, by simpa using hd2⟩

theorem recordsOf_map_record (rows : List (List String)) :
    recordsOf (rows.map ReadResult.record) = rows := by
  induction rows with
  | nil => rfl
  | cons r rest ih => simp only [List.map_cons, recordsOf, ih]

theorem genresLoop_eq (pieces genres : List String) :
    genresLoop pieces genres
      = genres ++ (pieces.map Strings.TrimSpace).filter (fun g => decide (g ≠ "")) := by
  induction pieces generalizing genres with
  | nil => simp [genresLoop]
  | cons p rest ih =>
    by_cases h : Strings.TrimSpace p ≠ ""
    · simp only [genresLoop, if_pos h, ih, List.map_cons, List.filter_cons,
        List.append_assoc, List.singleton_append]
      simp [h]
    · simp only [genresLoop, if_neg h, ih, List.map_cons, List.filter_cons]
      simp [h]

end Main

namespace Strings

theorem splitChars_ne_nil (sep : Char) (l : List Char) : splitChars sep l ≠ [] := by
  induction l with
  | nil => simp [splitChars]
  | cons c cs ih =>
    simp only [splitChars]
    split
    · simp
    · split <;> simp

theorem splitChars_join (sep : Char) (l : List Char) :
    List.intercalate [sep] (splitChars sep l) = l := by
  induction l with
  | nil => simp [splitChars, List.intercalate]
  | cons c cs ih =>
    simp only [splitChars]
    by_cases h : c = sep
    · simp only [if_pos h]
      cases hs : splitChars sep cs with
      | nil => exact absurd hs (splitChars_ne_nil sep cs)
      | cons t ts =>
        rw [hs] at ih
        simp only [List.intercalate, List.intersperse] at ih ⊢
        simp only [List.flatten_cons, List.nil_append, List.singleton_append] at ih ⊢
        rw [ih, h]
    · simp only [if_neg h]
      cases hs : splitChars sep cs with
      | nil => exact absurd hs (splitChars_ne_nil sep cs)
      | cons t ts =>
        rw [hs] at ih
        cases ts with
        | nil =>
          simp only [List.intercalate, List.intersperse] at ih ⊢
          simp only [List.flatten_cons, List.flatten_nil, List.append_nil] at ih ⊢
          rw [ih]
        | cons u us =>
          simp only [List.intercalate, List.intersperse] at ih ⊢
          simp only [List.flatten_cons, List.cons_append] at ih ⊢
          rw [ih]

theorem splitChars_no_sep (sep : Char) (l : List Char) :
    ∀ t ∈ splitChars sep l, sep ∉ t := by
  induction l with
  | nil => simp [splitChars]
  | cons c cs ih =>
    simp only [splitChars]
    by_cases h : c = sep
    · simp only [if_pos h]
      intro t ht
      rcases List.mem_cons.mp ht with e | e
      · rw [e]; simp
      · exact ih t e
    · simp only [if_neg h]
      cases hs : splitChars sep cs with
      | nil => exact absurd hs (splitChars_ne_nil sep cs)
      | cons u us =>
        rw [hs] at ih
        intro t ht
        rcases List.mem_cons.mp ht with e | e
        · rw [e]
          intro hmem
          rcases List.mem_cons.mp hmem with e' | e'
          · exact h e'.symm
          · exact ih u (List.mem_cons_self _ _) e'
        · exact ih t (List.mem_cons_of_mem _ e)

end Strings

/-! ## The converter: genres, row order, rows with a bad movie id -/

namespace Main

/-- C16: for every header and every record whose genre field is the sentinel
`(no genres listed)` or the empty string, the document `processMovies` writes
for the record has an empty genre list. -/
theorem sentinel_or_empty_genres_give_empty_list (clock : Nat → String)
    (header : List String) (reads : List ReadResult) (i : Nat) (row : List String)
    (hrow : (recordsOf reads)[i]? = some row)
    (h : readGenres (buildIdx header 0 []) row = some "(no genres listed)"
      ∨ readGenres (buildIdx header 0 []) row = some "") :
    ∃ docs doc, processMovies clock (ReadResult.record header :: reads)
        = Outcome.ok (recordsOf reads).length docs
      ∧ docs[i]? = some doc ∧ doc.Genres = [] := by
  obtain ⟨docs, hout, _, hdocs⟩ := processMovies_spec clock header reads
  obtain ⟨doc, hdoc, hproc⟩ := hdocs i row hrow
  obtain ⟨mid, t, g, _, _, hg, hrow'⟩ := processRow_some (buildIdx header 0 []) row (clock i)
  rw [hrow', Option.some.injEq] at hproc
  refine ⟨docs, doc, hout, hdoc, ?_⟩
  rw [← hproc]
  rcases h with h | h
  · rw [hg, Option.some.injEq] at h
    rw [h]
    show parseGenres "(no genres listed)" = []
    decide
  · rw [hg, Option.some.injEq] at h
    rw [h]
    show parseGenres "" = []
    decide

theorem sentinel_or_empty_genres_give_empty_list_witness :
    (recordsOf [ReadResult.record ["1", "Heat (1995)", "(no genres listed)"]])[0]?
        = some ["1", "Heat (1995)", "(no genres listed)"]
    ∧ (readGenres (buildIdx ["movieId", "title", "genres"] 0 [])
          ["1", "Heat (1995)", "(no genres listed)"] = some "(no genres listed)"
        ∨ readGenres (buildIdx ["movieId", "title", "genres"] 0 [])
          ["1", "Heat (1995)", "(no genres listed)"] = some "")
    ∧ (∃ docs doc, processMovies (fun _ => "t")
          [ReadResult.record ["movieId", "title", "genres"],
           ReadResult.record ["1", "Heat (1995)", "(no genres listed)"]]
          = Outcome.ok 1 docs
        ∧ docs[0]? = some doc ∧ doc.Genres = []) :=
  ⟨by decide, Or.inl (by decide),
   sentinel_or_empty_genres_give_empty_list (fun _ => "t") ["movieId", "title", "genres"]
     [ReadResult.record ["1", "Heat (1995)", "(no genres listed)"]] 0
     ["1", "Heat (1995)", "(no genres listed)"] (by decide) (Or.inl (by decide))⟩

/-- C17: for every header and every record whose genre field is neither empty
nor the sentinel, the genre list of the document `processMovies` writes is the
list of the pieces of the field between the `|` separators, each trimmed, the
pieces that are empty after trimming left out, in their order; no element is
empty and none has white space at either end.  (The pieces joined by `|` give
the field back, and no piece holds a `|`.) -/
theorem genres_are_trimmed_nonempty_pieces (clock : Nat → String)
    (header : List String) (reads : List ReadResult) (i : Nat) (row : List String)
    (genresRaw : String)
    (hrow : (recordsOf reads)[i]? = some row)
    (hread : readGenres (buildIdx header 0 []) row = some genresRaw)
    (hne : genresRaw ≠ "") (hsent : genresRaw ≠ "(no genres listed)") :
    ∃ docs doc, processMovies clock (ReadResult.record header :: reads)
        = Outcome.ok (recordsOf reads).length docs
      ∧ docs[i]? = some doc
      ∧ doc.Genres = ((Strings.Split genresRaw '|').map Strings.TrimSpace).filter
          (fun g => decide (g ≠ ""))
      ∧ (∀ g ∈ doc.Genres, g ≠ "" ∧ Strings.TrimSpace g = g
          ∧ (∀ c rest, g.data = c :: rest → Strings.isSpace c = false)
          ∧ (∀ pre c, g.data = pre ++ [c] → Strings.isSpace c = false))
      ∧ List.intercalate ['|'] ((Strings.Split genresRaw '|').map String.data)
          = genresRaw.data
      ∧ (∀ t ∈ Strings.Split genresRaw '|', '|' ∉ t.data) := by
  obtain ⟨docs, hout, _, hdocs⟩ := processMovies_spec clock header reads
  obtain ⟨doc, hdoc, hproc⟩ := hdocs i row hrow
  obtain ⟨mid, t, g, _, _, hg, hrow'⟩ := processRow_some (buildIdx header 0 []) row (clock i)
  rw [hrow', Option.some.injEq] at hproc
  rw [hread, Option.some.injEq] at hg
  subst hg
  have hgen : doc.Genres = ((Strings.Split genresRaw '|').map Strings.TrimSpace).filter
      (fun g => decide (g ≠ "")) := by
    rw [← hproc]
    simp only [parseGenres, hne, hsent, ne_eq, not_false_eq_true, and_self, if_true,
      genresLoop_eq, List.nil_append]
  have hdata : (Strings.Split genresRaw '|').map String.data
      = Strings.splitChars '|' genresRaw.data := by
    simp only [Strings.Split, List.map_map]
    exact List.map_id _
  refine ⟨docs, doc, hout, hdoc, hgen, ?_, ?_, ?_⟩
  · intro g hg
    rw [hgen, List.mem_filter, List.mem_map] at hg
    obtain ⟨⟨p, _, hp⟩, hnonempty⟩ := hg
    subst hp
    refine ⟨by simpa using hnonempty, Strings.TrimSpace_idem p, ?_, ?_⟩
    · intro c rest hc
      exact Strings.trim_head_not_space p.data rest c hc
    · intro pre c hc
      exact Strings.trim_last_not_space p.data pre c hc
  · rw [hdata]
    exact Strings.splitChars_join '|' genresRaw.data
  · intro t ht
    have : t.data ∈ Strings.splitChars '|' genresRaw.data := by
      rw [← hdata]
      exact List.mem_map_of_mem String.data ht
    exact Strings.splitChars_no_sep '|' genresRaw.data _ this

theorem genres_are_trimmed_nonempty_pieces_witness :
    (recordsOf [ReadResult.record ["1", "Toy Story (1995)", "Adventure| Animation ||Children"]])[0]?
        = some ["1", "Toy Story (1995)", "Adventure| Animation ||Children"]
    ∧ readGenres (buildIdx ["movieId", "title", "genres"] 0 [])
        ["1", "Toy Story (1995)", "Adventure| Animation ||Children"]
        = some "Adventure| Animation ||Children"
    ∧ processMovies (fun _ => "t")
        [ReadResult.record ["movieId", "title", "genres"],
         ReadResult.record ["1", "Toy Story (1995)", "Adventure| Animation ||Children"]]
        = Outcome.ok 1
            [⟨1, "Toy Story", some 1995, ["Adventure", "Animation", "Children"], "t"⟩]
    ∧ (∀ t ∈ Strings.Split "Adventure| Animation ||Children" '|', '|' ∉ t.data) :=
  ⟨by decide, by decide, by decide,
   match genres_are_trimmed_nonempty_pieces (fun _ => "t") ["movieId", "title", "genres"]
        [ReadResult.record ["1", "Toy Story (1995)", "Adventure| Animation ||Children"]] 0
        ["1", "Toy Story (1995)", "Adventure| Animation ||Children"]
        "Adventure| Animation ||Children" (by decide) (by decide) (by decide)
        (by decide) with
   | ⟨_, _, h⟩ => h.2.2.2.2.2⟩

/-- C18: when every read after the header returns a record, `processMovies`
returns the number of records and writes that many documents, one per record
and in the order of the records: document `i` is the one built from record `i`
(and from the clock reading for document `i`); its movie id, title, year and
genres are those built from record `i` whatever the clock reading. -/
theorem one_document_per_row_in_order (clock : Nat → String) (header : List String)
    (rows : List (List String)) :
    ∃ docs, processMovies clock (ReadResult.record header :: rows.map ReadResult.record)
        = Outcome.ok rows.length docs
      ∧ docs.length = rows.length
      ∧ ∀ i row, rows[i]? = some row →
          ∃ doc, docs[i]? = some doc
            ∧ processRow (buildIdx header 0 []) row (clock i) = some doc
            ∧ ∀ now, ∃ doc', processRow (buildIdx header 0 []) row now = some doc'
                ∧ doc'.MovieID = doc.MovieID ∧ doc'.Title = doc.Title
                ∧ doc'.Year = doc.Year ∧ doc'.Genres = doc.Genres := by
  obtain ⟨docs, hout, hlen, hdocs⟩ :=
    processMovies_spec clock header (rows.map ReadResult.record)
  rw [recordsOf_map_record] at hout hlen hdocs
  refine ⟨docs, hout, hlen, ?_⟩
  intro i row hi
  obtain ⟨doc, hdoc, hproc⟩ := hdocs i row hi
  refine ⟨doc, hdoc, hproc, ?_⟩
  intro now
  obtain ⟨mid, t, g, hm, ht, hg, h1⟩ := processRow_some (buildIdx header 0 []) row (clock i)
  obtain ⟨mid', t', g', hm', ht', hg', h2⟩ := processRow_some (buildIdx header 0 []) row now
  rw [hm, Option.some.injEq] at hm'
  rw [ht, Option.some.injEq] at ht'
  rw [hg, Option.some.injEq] at hg'
  subst hm' ht' hg'
  rw [h1, Option.some.injEq] at hproc
  exact ⟨_, h2, by rw [← hproc], by rw [← hproc], by rw [← hproc], by rw [← hproc]⟩

theorem one_document_per_row_in_order_witness :
    ([["2", "Jumanji (1995)", "Adventure|Children"], ["1", "Toy Story (1995)", "Comedy"]]
        : List (List String))[1]? = some ["1", "Toy Story (1995)", "Comedy"]
    ∧ processMovies (fun k => if k = 0 then "t0" else "t1")
        [ReadResult.record ["movieId", "title", "genres"],
         ReadResult.record ["2", "Jumanji (1995)", "Adventure|Children"],
         ReadResult.record ["1", "Toy Story (1995)", "Comedy"]]
        = Outcome.ok 2
            [⟨2, "Jumanji", some 1995, ["Adventure", "Children"], "t0"⟩,
             ⟨1, "Toy Story", some 1995, ["Comedy"], "t1"⟩]
    ∧ ∃ docs, processMovies (fun k => if k = 0 then "t0" else "t1")
          (ReadResult.record ["movieId", "title", "genres"]
            :: [["2", "Jumanji (1995)", "Adventure|Children"],
                ["1", "Toy Story (1995)", "Comedy"]].map ReadResult.record)
          = Outcome.ok 2 docs
        ∧ docs.length = 2 :=
  ⟨by decide, by decide,
   (one_document_per_row_in_order (fun k => if k = 0 then "t0" else "t1")
      ["movieId", "title", "genres"]
      [["2", "Jumanji (1995)", "Adventure|Children"],
       ["1", "Toy Story (1995)", "Comedy"]]).imp (fun _ h => ⟨h.1, h.2.1⟩)⟩

end Main

namespace Main

/-- C19, at a record whose movie id is not a number, and at a record too
short to hold the `movieId` column: neither record is skipped; each gets a
document with movie id `0`. -/
theorem row_with_unparseable_movie_id_is_not_skipped :
    (Strconv.Atoi "abc").2 = false
    ∧ processMovies (fun _ => "t")
        [ReadResult.record ["movieId", "title", "genres"],
         ReadResult.record ["abc", "Heat (1995)", "Action"],
         ReadResult.record ["2", "Jumanji (1995)", "Adventure"]]
        = Outcome.ok 2
            [⟨0, "Heat", some 1995, ["Action"], "t"⟩,
             ⟨2, "Jumanji", some 1995, ["Adventure"], "t"⟩]
    ∧ processMovies (fun _ => "t")
        [ReadResult.record ["title", "genres", "movieId"], ReadResult.record ["x"]]
        = Outcome.ok 1 [⟨0, "x", none, [], "t"⟩] :=
  ⟨by decide, by decide, by decide⟩

/-- C19, amended: every record the reader returns gets a document, also a
record whose movie id field cannot be parsed or is missing, and the count
returned is the number of records (only reads on which the record reader fails
are skipped).  The movie id of the document is the value `strconv.Atoi` gave
for the field read (the `movieId` column when the header names it inside the
record, else the first field), error or not, and `0` when the record has no
field; `Atoi` gives `0` for text that is not a decimal integer. -/
theorem row_with_bad_movie_id_still_yields_document (clock : Nat → String)
    (header : List String) (reads : List ReadResult) (i : Nat) (row : List String)
    (hrow : (recordsOf reads)[i]? = some row) :
    ∃ docs doc, processMovies clock (ReadResult.record header :: reads)
        = Outcome.ok (recordsOf reads).length docs
      ∧ docs.length = (recordsOf reads).length
      ∧ docs[i]? = some doc
      ∧ (((buildIdx header 0 []).commaOk "movieId").2 = true
          ∧ ((buildIdx header 0 []).commaOk "movieId").1 < row.length →
          ∃ f, row[((buildIdx header 0 []).commaOk "movieId").1]? = some f
            ∧ doc.MovieID = (Strconv.Atoi f).1)
      ∧ (¬ (((buildIdx header 0 []).commaOk "movieId").2 = true
          ∧ ((buildIdx header 0 []).commaOk "movieId").1 < row.length) →
          0 < row.length → ∃ f, row[0]? = some f ∧ doc.MovieID = (Strconv.Atoi f).1)
      ∧ (row.length = 0 → doc.MovieID = 0)
      ∧ (∀ f : String, Strconv.parseSigned f.data = none → Strconv.Atoi f = (0, false)) := by
  obtain ⟨docs, hout, hlen, hdocs⟩ := processMovies_spec clock header reads
  obtain ⟨doc, hdoc, hproc⟩ := hdocs i row hrow
  obtain ⟨mid, t, g, hm, _, _, hrow'⟩ := processRow_some (buildIdx header 0 []) row (clock i)
  rw [hrow', Option.some.injEq] at hproc
  have hmid : doc.MovieID = mid := by rw [← hproc]
  refine ⟨docs, doc, hout, hlen, hdoc, ?_, ?_, ?_, ?_⟩
  · intro hc
    have hcond : (((buildIdx header 0 []).commaOk "movieId").2
        && decide (((buildIdx header 0 []).commaOk "movieId").1 < row.length)) = true := by
      simp [hc.1, hc.2]
    unfold readMovieId at hm
    rw [if_pos hcond, index_of_lt row _ hc.2, Option.map_some', Option.some.injEq] at hm
    exact ⟨_, List.getElem?_eq_getElem hc.2, by rw [hmid, ← hm]⟩
  · intro hc hpos
    have hcond : ¬ (((buildIdx header 0 []).commaOk "movieId").2
        && decide (((buildIdx header 0 []).commaOk "movieId").1 < row.length)) = true := by
      simpa using hc
    unfold readMovieId at hm
    rw [if_neg hcond, if_pos hpos, index_of_lt row 0 hpos, Option.map_some',
      Option.some.injEq] at hm
    exact ⟨_, List.getElem?_eq_getElem hpos, by rw [hmid, ← hm]⟩
  · intro h0
    have hcond : ¬ (((buildIdx header 0 []).commaOk "movieId").2
        && decide (((buildIdx header 0 []).commaOk "movieId").1 < row.length)) = true := by
      simp [h0]
    have hlen0 : ¬ row.length > 0 := by omega
    unfold readMovieId at hm
    rw [if_neg hcond, if_neg hlen0, Option.some.injEq] at hm
    rw [hmid, ← hm]
  · intro f hf
    simp only [Strconv.Atoi, hf]

theorem row_with_bad_movie_id_still_yields_document_witness :
    (recordsOf [ReadResult.record ["abc", "Heat (1995)", "Action"], ReadResult.malformed,
        ReadResult.record ["2", "Jumanji (1995)", "Adventure"]])[1]?
        = some ["2", "Jumanji (1995)", "Adventure"]
    ∧ processMovies (fun _ => "t")
        [ReadResult.record ["movieId", "title", "genres"],
         ReadResult.record ["abc", "Heat (1995)", "Action"], ReadResult.malformed,
         ReadResult.record ["2", "Jumanji (1995)", "Adventure"]]
        = Outcome.ok 2
            [⟨0, "Heat", some 1995, ["Action"], "t"⟩,
             ⟨2, "Jumanji", some 1995, ["Adventure"], "t"⟩]
    ∧ (∀ f : String, Strconv.parseSigned f.data = none → Strconv.Atoi f = (0, false)) :=
  ⟨by decide, by decide,
   match row_with_bad_movie_id_still_yields_document (fun _ => "t")
        ["movieId", "title", "genres"]
        [ReadResult.record ["abc", "Heat (1995)", "Action"], ReadResult.malformed,
         ReadResult.record ["2", "Jumanji (1995)", "Adventure"]] 1
        ["2", "Jumanji (1995)", "Adventure"] (by decide) with
   | ⟨_, _, h⟩ => h.2.2.2.2.2.2⟩

end Main

/-! ## Concurrent callers of `GetOrCreate` with one unseen id -/

namespace Mappers

theorem writeSection_of_none (m : IDMapper) (id : Int) (h : m.mapping.lookup id = none) :
    writeSection m id = (Pc.done m.nextIdx, (m.GetOrCreate id).2) := by
  rw [GetOrCreate_of_none m id h]
  simp only [writeSection, h, GoMap.set_of_lookup_eq_none m.mapping id m.nextIdx h]

/-- One caller running alone, its two sections in a row, does what the
sequential `GetOrCreate` does. -/
theorem exec_single_caller (m : IDMapper) (id : Int) :
    exec ⟨m, [(id, Pc.start)]⟩ [0, 0]
      = ⟨(m.GetOrCreate id).2, [(id, Pc.done (m.GetOrCreate id).1)]⟩ := by
  cases hl : m.mapping.lookup id with
  | some v =>
    rw [GetOrCreate_of_some m id v hl]
    simp [exec, step, stepCaller, readSection, hl]
  | none =>
    have hw := writeSection_of_none m id hl
    have hg := GetOrCreate_of_none m id hl
    simp [exec, step, stepCaller, readSection, hl, hw, hg]

end Mappers

/-! ## The converter: which field of a record is read -/

namespace Main

theorem commaOk_set (m : StrMap) (k name : String) (v : Nat) :
    (m.set k v).commaOk name = if k = name then (v, true) else m.commaOk name := by
  induction m with
  | nil =>
    by_cases h : k = name
    · simp [StrMap.set, StrMap.commaOk, h]
    · simp [StrMap.set, StrMap.commaOk, h]
  | cons e rest ih =>
    obtain ⟨a, w⟩ := e
    by_cases ha : a = k
    · subst ha
      by_cases h : a = name
      · simp [StrMap.set, StrMap.commaOk, h]
      · simp [StrMap.set, StrMap.commaOk, h]
    · by_cases h : k = name
      · subst h
        simp only [StrMap.set, if_neg ha, StrMap.commaOk, ih, if_true]
      · by_cases han : a = name
        · simp only [StrMap.set, if_neg ha, StrMap.commaOk, if_pos han, if_neg h]
        · simp only [StrMap.set, if_neg ha, StrMap.commaOk, if_neg han, ih, if_neg h]

theorem commaOk_buildIdx_of_not_mem (header : List String) (i : Nat) (idx : StrMap)
    (name : String) (h : name ∉ header) :
    (buildIdx header i idx).commaOk name = idx.commaOk name := by
  induction header generalizing i idx with
  | nil => rfl
  | cons x rest ih =>
    have hx : ¬ x = name := fun e => h (by rw [e]; exact List.mem_cons_self _ _)
    have hrest : name ∉ rest := fun hm => h (List.mem_cons_of_mem _ hm)
    simp only [buildIdx]
    rw [ih (i + 1) (idx.set x i) hrest, commaOk_set, if_neg hx]

theorem commaOk_buildIdx_of_lastNamed (header : List String) (i : Nat) (idx : StrMap)
    (name : String) (p : Nat) (h : LastNamed header name p) :
    (buildIdx header i idx).commaOk name = (i + p, true) := by
  induction header generalizing i idx p with
  | nil =>
    obtain ⟨h0, _⟩ := h
    simp at h0
  | cons x rest ih =>
    obtain ⟨hp, hlast⟩ := h
    simp only [buildIdx]
    cases p with
    | zero =>
      simp only [List.getElem?_cons_zero, Option.some.injEq] at hp
      have hrest : name ∉ rest := by
        intro hm
        obtain ⟨q, hq⟩ := List.getElem?_of_mem hm
        exact hlast (q + 1) (by omega) (by simpa using hq)
      rw [commaOk_buildIdx_of_not_mem rest (i + 1) _ name hrest, commaOk_set, if_pos hp]
      rfl
    | succ p' =>
      have hl' : LastNamed rest name p' := by
        refine ⟨by simpa using hp, ?_⟩
        intro q hq
        have := hlast (q + 1) (by omega)
        simpa using this
      rw [ih (i + 1) (idx.set x i) p' hl']
      congr 1
      omega

theorem lastNamed_of_mem (header : List String) (name : String) (h : name ∈ header) :
    ∃ p, LastNamed header name p := by
  induction header with
  | nil => cases h
  | cons x rest ih =>
    by_cases hrest : name ∈ rest
    · obtain ⟨p, hp, hlast⟩ := ih hrest
      refine ⟨p + 1, by simpa using hp, ?_⟩
      intro q hq
      cases q with
      | zero => omega
      | succ q' =>
        have := hlast q' (by omega)
        simpa using this
    · have hx : x = name := by
        rcases List.mem_cons.mp h with e | e
        · exact e.symm
        · exact absurd e hrest
      refine ⟨0, by simp [hx], ?_⟩
      intro q hq
      cases q with
      | zero => omega
      | succ q' =>
        intro hq'
        simp only [List.getElem?_cons_succ] at hq'
        exact hrest (List.getElem?_mem hq')

theorem lastNamed_unique (header : List String) (name : String) (p q : Nat)
    (hp : LastNamed header name p) (hq : LastNamed header name q) : p = q := by
  rcases Nat.lt_trichotomy p q with h | h | h
  · exact absurd hq.1 (hp.2 q h)
  · exact h
  · exact absurd hp.1 (hq.2 p h)

/-- The test `ok && v < len(rec)` of `processMovies` holds exactly when the
last column of that name lies inside the record, and `v` is then its
position. -/
theorem named_column_test (header : List String) (name : String) (n : Nat) :
    (((buildIdx header 0 []).commaOk name).2
        && decide (((buildIdx header 0 []).commaOk name).1 < n)) = true
      ↔ ∃ p, LastNamed header name p ∧ p < n
          ∧ ((buildIdx header 0 []).commaOk name).1 = p := by
  by_cases hmem : name ∈ header
  · obtain ⟨p, hp⟩ := lastNamed_of_mem header name hmem
    have hc := commaOk_buildIdx_of_lastNamed header 0 [] name p hp
    rw [Nat.zero_add] at hc
    rw [hc]
    simp only [Bool.true_and, decide_eq_true_eq]
    constructor
    · intro h
      exact ⟨p, hp, h, rfl⟩
    · rintro ⟨q, hq, hlt, _⟩
      rw [lastNamed_unique header name p q hp hq]
      exact hlt
  · have hc := commaOk_buildIdx_of_not_mem header 0 [] name hmem
    rw [hc]
    simp only [StrMap.commaOk, Bool.false_and, Bool.false_eq_true, false_iff, not_exists]
    rintro p ⟨⟨hp, _⟩, _⟩
    exact hmem (List.getElem?_mem hp)

theorem lastNamed_of_nodup (header : List String) (name : String) (p : Nat)
    (hnd : header.Nodup) (hp : header[p]? = some name) : LastNamed header name p := by
  refine ⟨hp, ?_⟩
  intro q hq hqn
  obtain ⟨hp1, hp2⟩ := List.getElem?_eq_some.mp hp
  obtain ⟨hq1, hq2⟩ := List.getElem?_eq_some.mp hqn
  have := (List.Nodup.getElem_inj_iff hnd).mp (hp2.trans hq2.symm)
  omega

end Main

namespace Main

theorem read_text_spec (header row : List String) (name : String) (pos : Nat) :
    ∃ f,
      (if (((buildIdx header 0 []).commaOk name).2
            && decide (((buildIdx header 0 []).commaOk name).1 < row.length)) = true
        then index row ((buildIdx header 0 []).commaOk name).1
        else if row.length > pos then index row pos else some "") = some f
      ∧ (∀ p, LastNamed header name p → p < row.length → row[p]? = some f)
      ∧ ((¬ ∃ p, LastNamed header name p ∧ p < row.length) →
          (∀ g, row[pos]? = some g → f = g) ∧ (row[pos]? = none → f = "")) := by
  by_cases hc : (((buildIdx header 0 []).commaOk name).2
      && decide (((buildIdx header 0 []).commaOk name).1 < row.length)) = true
  · obtain ⟨p, hp, hlt, hv⟩ := (named_column_test header name row.length).mp hc
    rw [if_pos hc, hv, index_of_lt row p hlt]
    refine ⟨row[p], rfl, ?_, ?_⟩
    · intro q hq _
      rw [← lastNamed_unique header name p q hp hq]
      exact List.getElem?_eq_getElem hlt
    · intro hno
      exact absurd ⟨p, hp, hlt⟩ hno
  · have hno : ¬ ∃ p, LastNamed header name p ∧ p < row.length := by
      rintro ⟨p, hp, hlt⟩
      apply hc
      have hv := commaOk_buildIdx_of_lastNamed header 0 [] name p hp
      rw [Nat.zero_add] at hv
      exact (named_column_test header name row.length).mpr ⟨p, hp, hlt, by rw [hv]⟩
    rw [if_neg hc]
    by_cases hpos : row.length > pos
    · rw [if_pos hpos, index_of_lt row pos hpos]
      refine ⟨row[pos], rfl, ?_, ?_⟩
      · intro p hp hlt
        exact absurd ⟨p, hp, hlt⟩ hno
      · intro _
        refine ⟨?_, ?_⟩
        · intro g hg
          rw [List.getElem?_eq_getElem hpos, Option.some.injEq] at hg
          exact hg
        · intro hnone
          rw [List.getElem?_eq_getElem hpos] at hnone
          cases hnone
    · rw [if_neg hpos]
      refine ⟨"", rfl, ?_, ?_⟩
      · intro p hp hlt
        exact absurd ⟨p, hp, hlt⟩ hno
      · intro _
        refine ⟨?_, fun _ => rfl⟩
        intro g hg
        rw [List.getElem?_eq_none (by omega)] at hg
        cases hg

theorem readMovieId_spec (header row : List String) :
    ∃ mid, readMovieId (buildIdx header 0 []) row = some mid
      ∧ (∀ p, LastNamed header "movieId" p → p < row.length →
          ∃ f, row[p]? = some f ∧ mid = (Strconv.Atoi f).1)
      ∧ ((¬ ∃ p, LastNamed header "movieId" p ∧ p < row.length) →
          (∀ f, row[0]? = some f → mid = (Strconv.Atoi f).1) ∧ (row[0]? = none → mid = 0)) := by
  unfold readMovieId
  by_cases hc : (((buildIdx header 0 []).commaOk "movieId").2
      && decide (((buildIdx header 0 []).commaOk "movieId").1 < row.length)) = true
  · obtain ⟨p, hp, hlt, hv⟩ := (named_column_test header "movieId" row.length).mp hc
    rw [if_pos hc, hv, index_of_lt row p hlt]
    refine ⟨(Strconv.Atoi row[p]).1, rfl, ?_, ?_⟩
    · intro q hq _
      rw [← lastNamed_unique header "movieId" p q hp hq]
      exact ⟨row[p], List.getElem?_eq_getElem hlt, rfl⟩
    · intro hno
      exact absurd ⟨p, hp, hlt⟩ hno
  · have hno : ¬ ∃ p, LastNamed header "movieId" p ∧ p < row.length := by
      rintro ⟨p, hp, hlt⟩
      apply hc
      have hv := commaOk_buildIdx_of_lastNamed header 0 [] "movieId" p hp
      rw [Nat.zero_add] at hv
      exact (named_column_test header "movieId" row.length).mpr ⟨p, hp, hlt, by rw [hv]⟩
    rw [if_neg hc]
    by_cases hpos : row.length > 0
    · rw [if_pos hpos, index_of_lt row 0 hpos]
      refine ⟨(Strconv.Atoi row[0]).1, rfl, ?_, ?_⟩
      · intro p hp hlt
        exact absurd ⟨p, hp, hlt⟩ hno
      · intro _
        refine ⟨?_, ?_⟩
        · intro g hg
          rw [List.getElem?_eq_getElem hpos, Option.some.injEq] at hg
          rw [hg]
        · intro hnone
          rw [List.getElem?_eq_getElem hpos] at hnone
          cases hnone
    · rw [if_neg hpos]
      refine ⟨0, rfl, ?_, ?_⟩
      · intro p hp hlt
        exact absurd ⟨p, hp, hlt⟩ hno
      · intro _
        refine ⟨?_, fun _ => rfl⟩
        intro g hg
        rw [List.getElem?_eq_none (by omega)] at hg
        cases hg

theorem processMovies_no_index_failure (clock : Nat → String) (reads : List ReadResult) :
    processMovies clock reads ≠ Outcome.indexOutOfRange := by
  cases reads with
  | nil => simp [processMovies]
  | cons r rest =>
    cases r with
    | malformed => simp [processMovies]
    | record header =>
      obtain ⟨docs, h, _⟩ := processMovies_spec clock header rest
      rw [h]
      intro e
      cases e

/-- C21, at headers that name a column twice, the later position outside the
record: the column named `movieId` at position 1 (inside the record) is passed
over and the first field is read; the column named `title` at position 0 is
passed over and the second field is read. -/
theorem earlier_named_column_is_passed_over :
    (["a", "movieId", "b", "movieId"] : List String)[1]? = some "movieId"
    ∧ 1 < (["7", "8", "9"] : List String).length
    ∧ processMovies (fun _ => "t")
        [ReadResult.record ["a", "movieId", "b", "movieId"], ReadResult.record ["7", "8", "9"]]
        = Outcome.ok 1 [⟨7, "8", none, ["9"], "t"⟩]
    ∧ (["title", "x", "y", "title"] : List String)[0]? = some "title"
    ∧ 0 < (["A", "B", "C"] : List String).length
    ∧ processMovies (fun _ => "t")
        [ReadResult.record ["title", "x", "y", "title"], ReadResult.record ["A", "B", "C"]]
        = Outcome.ok 1 [⟨0, "B", none, ["C"], "t"⟩] :=
  ⟨by decide, by decide, by decide, by decide, by decide, by decide⟩

/-- C21, amended: for every header and every record of any length (the empty
record included), no field access is out of range and the document is built
from three fields read as follows.  The movie id is read (through
`strconv.Atoi`) from the last column the header names `movieId` when that
position lies inside the record, otherwise from the first field, and is `0`
when the record has no field; the title is read from the last column named
`title` when inside the record, otherwise from the second field, and is the
empty string when there is none; the genres likewise from the last column named
`genres`, otherwise the third field, otherwise the empty string.  In a header
without repeated names the last column of a name is the only one. -/
theorem fields_read_by_last_named_column_else_position (header row : List String)
    (now : String) :
    ∃ mid titleRaw genresRaw,
      processRow (buildIdx header 0 []) row now
        = some ⟨mid, (parseTitleAndYear titleRaw).1, (parseTitleAndYear titleRaw).2,
            parseGenres genresRaw, now⟩
      ∧ (∀ p, LastNamed header "movieId" p → p < row.length →
          ∃ f, row[p]? = some f ∧ mid = (Strconv.Atoi f).1)
      ∧ ((¬ ∃ p, LastNamed header "movieId" p ∧ p < row.length) →
          (∀ f, row[0]? = some f → mid = (Strconv.Atoi f).1) ∧ (row[0]? = none → mid = 0))
      ∧ (∀ p, LastNamed header "title" p → p < row.length → row[p]? = some titleRaw)
      ∧ ((¬ ∃ p, LastNamed header "title" p ∧ p < row.length) →
          (∀ f, row[1]? = some f → titleRaw = f) ∧ (row[1]? = none → titleRaw = ""))
      ∧ (∀ p, LastNamed header "genres" p → p < row.length → row[p]? = some genresRaw)
      ∧ ((¬ ∃ p, LastNamed header "genres" p ∧ p < row.length) →
          (∀ f, row[2]? = some f → genresRaw = f) ∧ (row[2]? = none → genresRaw = ""))
      ∧ (header.Nodup → ∀ name p, header[p]? = some name → LastNamed header name p)
      ∧ (∀ clock reads, processMovies clock reads ≠ Outcome.indexOutOfRange) := by
  obtain ⟨mid, hm, hm1, hm2⟩ := readMovieId_spec header row
  obtain ⟨t, ht, ht1, ht2⟩ := read_text_spec header row "title" 1
  obtain ⟨g, hg, hg1, hg2⟩ := read_text_spec header row "genres" 2
  have ht' : readTitle (buildIdx header 0 []) row = some t := ht
  have hg' : readGenres (buildIdx header 0 []) row = some g := hg
  refine ⟨mid, t, g, ?_, hm1, hm2, ht1, ht2, hg1, hg2, ?_, processMovies_no_index_failure⟩
  · simp only [processRow, hm, ht', hg']
  · intro hnd name p hp
    exact lastNamed_of_nodup header name p hnd hp

theorem fields_read_by_last_named_column_else_position_witness :
    LastNamed ["title", "genres", "movieId"] "movieId" 2
    ∧ 2 < (["Heat (1995)", "Action|Crime", "6", "extra"] : List String).length
    ∧ processRow (buildIdx ["title", "genres", "movieId"] 0 [])
        ["Heat (1995)", "Action|Crime", "6", "extra"] "t"
        = some ⟨6, "Heat", some 1995, ["Action", "Crime"], "t"⟩
    ∧ processRow (buildIdx ["title", "genres", "movieId"] 0 []) [] "t"
        = some ⟨0, "", none, [], "t"⟩
    ∧ (∃ mid titleRaw genresRaw,
        processRow (buildIdx ["title", "genres", "movieId"] 0 [])
          ["Heat (1995)", "Action|Crime", "6", "extra"] "t"
          = some ⟨mid, (parseTitleAndYear titleRaw).1, (parseTitleAndYear titleRaw).2,
              parseGenres genresRaw, "t"⟩
        ∧ ∃ f, (["Heat (1995)", "Action|Crime", "6", "extra"] : List String)[2]? = some f
            ∧ mid = (Strconv.Atoi f).1) :=
  have hlast : LastNamed ["title", "genres", "movieId"] "movieId" 2 :=
    lastNamed_of_nodup _ _ _ (by decide) (by decide)
  ⟨hlast, by decide, by decide, by decide,
   match fields_read_by_last_named_column_else_position ["title", "genres", "movieId"]
        ["Heat (1995)", "Action|Crime", "6", "extra"] "t" with
   | ⟨mid, t, g, h⟩ => ⟨mid, t, g, h.1, h.2.1 2 hlast (by decide)⟩⟩

end Main

/-! ## The identity mapper in 64-bit arithmetic: agreement with exact counting -/

namespace Mappers

theorem go64_wrap_of_inRange (x : Int) (h : Strconv.InRange x) : Go64.wrap x = x := by
  simp only [Strconv.InRange, Strconv.minInt, Strconv.maxInt] at h
  simp only [Go64.wrap]
  omega

theorem go64_wrap_inRange (x : Int) : Strconv.InRange (Go64.wrap x) := by
  simp only [Strconv.InRange, Strconv.minInt, Strconv.maxInt, Go64.wrap]
  omega

theorem go64_GetOrCreate_of_some (s : IDMapper) (id v : Int)
    (h : s.mapping.lookup id = some v) : Go64.GetOrCreate s id = (v, s) := by
  simp [Go64.GetOrCreate, h]

theorem go64_GetOrCreate_of_none (s : IDMapper) (id : Int)
    (h : s.mapping.lookup id = none) :
    Go64.GetOrCreate s id =
      (s.nextIdx, ⟨s.mapping ++ [(id, s.nextIdx)], Go64.wrap (s.nextIdx + 1), true⟩) := by
  simp [Go64.GetOrCreate, h, GoMap.set_of_lookup_eq_none]

theorem go64_GetOrCreate_fst (s : IDMapper) (id : Int) :
    (Go64.GetOrCreate s id).1 = (s.GetOrCreate id).1 := by
  cases hl : s.mapping.lookup id with
  | some v => rw [go64_GetOrCreate_of_some s id v hl, GetOrCreate_of_some s id v hl]
  | none => rw [go64_GetOrCreate_of_none s id hl, GetOrCreate_of_none s id hl]

theorem go64_GetOrCreate_mapping (s : IDMapper) (id : Int) :
    (Go64.GetOrCreate s id).2.mapping = (s.GetOrCreate id).2.mapping := by
  cases hl : s.mapping.lookup id with
  | some v => rw [go64_GetOrCreate_of_some s id v hl, GetOrCreate_of_some s id v hl]
  | none => rw [go64_GetOrCreate_of_none s id hl, GetOrCreate_of_none s id hl]

theorem go64_GetOrCreate_eq (s : IDMapper) (id : Int)
    (h : Strconv.InRange (s.GetOrCreate id).2.nextIdx) :
    Go64.GetOrCreate s id = s.GetOrCreate id := by
  cases hl : s.mapping.lookup id with
  | some v => rw [go64_GetOrCreate_of_some s id v hl, GetOrCreate_of_some s id v hl]
  | none =>
    rw [GetOrCreate_of_none s id hl] at h
    rw [go64_GetOrCreate_of_none s id hl, GetOrCreate_of_none s id hl,
      go64_wrap_of_inRange _ h]

theorem go64_call_eq (s : IDMapper) (c : Call) (h : Strconv.InRange (call s c).2.nextIdx) :
    Go64.call s c = call s c := by
  cases c with
  | getOrCreate id =>
    have e : Go64.GetOrCreate s id = s.GetOrCreate id := go64_GetOrCreate_eq s id h
    simp only [Go64.call, call, e]
  | get id => rfl
  | hasChanged => rfl
  | getMapping => rfl
  | count => rfl

theorem nextIdx_le_call (s : IDMapper) (c : Call) : s.nextIdx ≤ (call s c).2.nextIdx := by
  rcases call_state s c with e | ⟨id, _, e⟩
  · rw [e]
  · rw [e]; exact nextIdx_le_GetOrCreate s id

theorem go64_run_eq (s : IDMapper) (cs : List Call) (hlo : Strconv.minInt ≤ s.nextIdx)
    (hhi : (run s cs).nextIdx ≤ Strconv.maxInt) : Go64.run s cs = run s cs := by
  induction cs generalizing s with
  | nil => rfl
  | cons c rest ih =>
    have h1 := nextIdx_le_call s c
    have h2 := nextIdx_le_run (call s c).2 rest
    have hhi' : (run (call s c).2 rest).nextIdx ≤ Strconv.maxInt := hhi
    have hr : Strconv.InRange (call s c).2.nextIdx := ⟨le_trans hlo h1, le_trans h2 hhi'⟩
    have hstep : Go64.run s (c :: rest) = Go64.run (call s c).2 rest := by
      simp only [Go64.run, go64_call_eq s c hr]
    rw [hstep]
    exact ih (call s c).2 hr.1 hhi'

theorem go64_NewIDMapper_eq (seed : GoMap)
    (h : (NewIDMapper seed).nextIdx ≤ Strconv.maxInt) :
    Go64.NewIDMapper seed = NewIDMapper seed := by
  have h0 := nextIdx_NewIDMapper_nonneg seed
  have hr : Strconv.InRange (maxIdxLoop seed (-1) + 1) := by
    refine ⟨?_, h⟩
    have : (NewIDMapper seed).nextIdx = maxIdxLoop seed (-1) + 1 := rfl
    rw [this] at h0
    simp only [Strconv.minInt]
    omega
  simp only [Go64.NewIDMapper, NewIDMapper, go64_wrap_of_inRange _ hr]

theorem go64_run_new_eq (seed : GoMap) (cs : List Call)
    (h : watermarkExact seed cs ≤ Strconv.maxInt) :
    Go64.run (Go64.NewIDMapper seed) cs = run (NewIDMapper seed) cs := by
  have h0 := nextIdx_NewIDMapper_nonneg seed
  have hmono := nextIdx_le_run (NewIDMapper seed) cs
  have hnew : (NewIDMapper seed).nextIdx ≤ Strconv.maxInt := le_trans hmono h
  rw [go64_NewIDMapper_eq seed hnew]
  refine go64_run_eq _ cs ?_ h
  simp only [Strconv.minInt]
  omega

theorem watermarkExact_le_append (seed : GoMap) (cs₁ cs₂ : List Call) :
    watermarkExact seed cs₁ ≤ watermarkExact seed (cs₁ ++ cs₂) := by
  simp only [watermarkExact, run_append]
  exact nextIdx_le_run _ cs₂

theorem watermarkExact_nonneg (seed : GoMap) (cs : List Call) : 0 ≤ watermarkExact seed cs :=
  le_trans (nextIdx_NewIDMapper_nonneg seed) (nextIdx_le_run _ cs)

theorem go64_wf_run (s : IDMapper) (cs : List Call) (h : s.mapping.WF) :
    (Go64.run s cs).mapping.WF := by
  induction cs generalizing s with
  | nil => exact h
  | cons c rest ih =>
    refine ih _ ?_
    cases c with
    | getOrCreate id =>
      show (Go64.GetOrCreate s id).2.mapping.WF
      rw [go64_GetOrCreate_mapping]
      exact wf_GetOrCreate s id h
    | get id => exact h
    | hasChanged => exact h
    | getMapping => exact h
    | count => exact h

end Mappers

/-! ## The identity mapper in 64-bit arithmetic: allocation and invariants -/

namespace Mappers

/-- C1, at a seed that holds the largest `int`: `NewIDMapper` wraps `nextIdx`
to the smallest `int`, and `GetOrCreate` of the unseen id `2` returns that
value, which is below the stored index; and at a seed whose watermark is the
largest `int`, `nextIdx` after the allocation is the smallest `int`, not one
more. -/
theorem watermark_wraps_at_largest_int :
    (2 : Int) ∉ GoMap.keys (Go64.run (Go64.NewIDMapper [(1, 9223372036854775807)]) []).mapping
    ∧ ((1, 9223372036854775807) : Int × Int)
        ∈ (Go64.run (Go64.NewIDMapper [(1, 9223372036854775807)]) []).mapping
    ∧ (Go64.GetOrCreate (Go64.run (Go64.NewIDMapper [(1, 9223372036854775807)]) []) 2).1
        = -9223372036854775808
    ∧ ¬ ((9223372036854775807 : Int)
        < (Go64.GetOrCreate (Go64.run (Go64.NewIDMapper [(1, 9223372036854775807)]) []) 2).1)
    ∧ (Go64.NewIDMapper [(1, 9223372036854775806)]).nextIdx = 9223372036854775807
    ∧ (Go64.GetOrCreate (Go64.NewIDMapper [(1, 9223372036854775806)]) 2).2.nextIdx
        = -9223372036854775808 :=
  ⟨by decide, by decide, by decide, by decide, by decide, by decide⟩

/-- C1, amended: in every state reached from `NewIDMapper(seed)` by method
calls, `GetOrCreate(id)` with an `id` that is not a key returns the watermark
`nextIdx`, and afterwards `id` maps to it.  As long as the watermark counted
without overflow is below the largest `int`, that value is above every index in
the mapping and above every value an earlier `GetOrCreate` returned, and
`nextIdx` is one more afterwards. -/
theorem getOrCreate_unseen_allocates_watermark_in_range (seed : GoMap) (cs : List Call)
    (id : Int)
    (hnew : id ∉ (Go64.run (Go64.NewIDMapper seed) cs).mapping.keys) :
    (Go64.GetOrCreate (Go64.run (Go64.NewIDMapper seed) cs) id).1
        = (Go64.run (Go64.NewIDMapper seed) cs).nextIdx
    ∧ (Go64.GetOrCreate (Go64.run (Go64.NewIDMapper seed) cs) id).2.mapping.lookup id
        = some (Go64.run (Go64.NewIDMapper seed) cs).nextIdx
    ∧ (watermarkExact seed cs < Strconv.maxInt →
        (∀ p ∈ (Go64.run (Go64.NewIDMapper seed) cs).mapping,
            p.2 < (Go64.GetOrCreate (Go64.run (Go64.NewIDMapper seed) cs) id).1)
        ∧ (∀ cs₁ cs₂ id', cs = cs₁ ++ Call.getOrCreate id' :: cs₂ →
            (Go64.GetOrCreate (Go64.run (Go64.NewIDMapper seed) cs₁) id').1
              < (Go64.GetOrCreate (Go64.run (Go64.NewIDMapper seed) cs) id).1)
        ∧ (Go64.GetOrCreate (Go64.run (Go64.NewIDMapper seed) cs) id).2.nextIdx
            = (Go64.run (Go64.NewIDMapper seed) cs).nextIdx + 1) := by
  have hl := (GoMap.lookup_eq_none_iff _ _).mpr hnew
  refine ⟨?_, ?_, ?_⟩
  · rw [go64_GetOrCreate_of_none _ id hl]
  · rw [go64_GetOrCreate_of_none _ id hl]
    simp only [GoMap.lookup_append_single, hl, if_true]
  · intro hfit
    have hs := go64_run_new_eq seed cs (le_of_lt hfit)
    rw [hs] at hnew hl ⊢
    have hexact := getOrCreate_unseen_allocates_watermark seed cs id hnew
    have hnext : ((run (NewIDMapper seed) cs).GetOrCreate id).2.nextIdx
        = (run (NewIDMapper seed) cs).nextIdx + 1 := hexact.2.2.2.2
    have hr : Strconv.InRange ((run (NewIDMapper seed) cs).GetOrCreate id).2.nextIdx := by
      rw [hnext]
      have h0 := watermarkExact_nonneg seed cs
      simp only [watermarkExact, Strconv.maxInt] at h0 hfit
      simp only [Strconv.InRange, Strconv.minInt, Strconv.maxInt]
      omega
    rw [go64_GetOrCreate_eq _ id hr]
    refine ⟨hexact.2.1, ?_, hnext⟩
    intro cs₁ cs₂ id' hcs
    have hpre : watermarkExact seed cs₁ ≤ Strconv.maxInt := by
      have := watermarkExact_le_append seed cs₁ (Call.getOrCreate id' :: cs₂)
      rw [← hcs] at this
      exact le_trans this (le_of_lt hfit)
    rw [go64_run_new_eq seed cs₁ hpre, go64_GetOrCreate_fst]
    exact hexact.2.2.1 cs₁ cs₂ id' hcs

theorem getOrCreate_unseen_allocates_watermark_in_range_witness :
    (40 : Int) ∉ (Go64.run (Go64.NewIDMapper [(10, 0), (20, 1)])
        [Call.getOrCreate 30, Call.get 10]).mapping.keys
    ∧ watermarkExact [(10, 0), (20, 1)] [Call.getOrCreate 30, Call.get 10] < Strconv.maxInt
    ∧ (Go64.GetOrCreate (Go64.run (Go64.NewIDMapper [(10, 0), (20, 1)])
        [Call.getOrCreate 30, Call.get 10]) 40).1 = 3
    ∧ (Go64.GetOrCreate (Go64.run (Go64.NewIDMapper [(10, 0), (20, 1)])
        [Call.getOrCreate 30, Call.get 10]) 40).2.nextIdx
        = (Go64.run (Go64.NewIDMapper [(10, 0), (20, 1)])
            [Call.getOrCreate 30, Call.get 10]).nextIdx + 1 :=
  ⟨by decide, by decide,
   (getOrCreate_unseen_allocates_watermark_in_range [(10, 0), (20, 1)]
      [Call.getOrCreate 30, Call.get 10] 40 (by decide)).1.trans (by decide),
   ((getOrCreate_unseen_allocates_watermark_in_range [(10, 0), (20, 1)]
      [Call.getOrCreate 30, Call.get 10] 40 (by decide)).2.2 (by decide)).2.2⟩

/-- C2, at a one-to-one seed that holds the largest and the smallest `int` as
indices: `nextIdx` wraps to the smallest `int`, and `GetOrCreate(3)` gives id
`3` the index that id `2` already has. -/
theorem wrapped_watermark_reuses_index :
    OneToOne [(1, 9223372036854775807), (2, -9223372036854775808)]
    ∧ (Go64.run (Go64.NewIDMapper [(1, 9223372036854775807), (2, -9223372036854775808)])
        [Call.getOrCreate 3]).mapping.lookup 2 = some (-9223372036854775808)
    ∧ (Go64.run (Go64.NewIDMapper [(1, 9223372036854775807), (2, -9223372036854775808)])
        [Call.getOrCreate 3]).mapping.lookup 3 = some (-9223372036854775808)
    ∧ ¬ OneToOne (Go64.run
        (Go64.NewIDMapper [(1, 9223372036854775807), (2, -9223372036854775808)])
        [Call.getOrCreate 3]).mapping := by
  have h2 : (Go64.run (Go64.NewIDMapper [(1, 9223372036854775807), (2, -9223372036854775808)])
      [Call.getOrCreate 3]).mapping.lookup 2 = some (-9223372036854775808) := by decide
  have h3 : (Go64.run (Go64.NewIDMapper [(1, 9223372036854775807), (2, -9223372036854775808)])
      [Call.getOrCreate 3]).mapping.lookup 3 = some (-9223372036854775808) := by decide
  refine ⟨?_, h2, h3, ?_⟩
  · intro a b i ha hb
    simp only [GoMap.lookup] at ha hb
    split at ha <;> split at hb <;> simp_all <;> omega
  · intro h
    have := h 2 3 _ h2 h3
    omega

/-- C2, amended: when no two ids of the seed share an index, then as long as
the watermark counted without overflow does not exceed the largest `int`, no
two ids share an index in the state reached from `NewIDMapper(seed)` by the
method calls. -/
theorem mapping_stays_one_to_one_in_range (seed : GoMap) (cs : List Call)
    (hseed : ∀ id₁ id₂ idx, seed.lookup id₁ = some idx → seed.lookup id₂ = some idx →
      id₁ = id₂)
    (hfit : watermarkExact seed cs ≤ Strconv.maxInt) :
    ∀ id₁ id₂ idx, (Go64.run (Go64.NewIDMapper seed) cs).mapping.lookup id₁ = some idx →
      (Go64.run (Go64.NewIDMapper seed) cs).mapping.lookup id₂ = some idx → id₁ = id₂ := by
  rw [go64_run_new_eq seed cs hfit]
  exact mapping_stays_one_to_one seed cs hseed

theorem mapping_stays_one_to_one_in_range_witness :
    OneToOne [(10, 0), (20, 1)]
    ∧ watermarkExact [(10, 0), (20, 1)] [Call.getOrCreate 30, Call.getOrCreate 10]
        ≤ Strconv.maxInt
    ∧ OneToOne (Go64.run (Go64.NewIDMapper [(10, 0), (20, 1)])
        [Call.getOrCreate 30, Call.getOrCreate 10]).mapping :=
  have hseed : OneToOne [(10, 0), (20, 1)] := by
    intro a b i ha hb
    simp only [GoMap.lookup] at ha hb
    split at ha <;> split at hb <;> simp_all <;> omega
  ⟨hseed, by decide,
   mapping_stays_one_to_one_in_range [(10, 0), (20, 1)]
     [Call.getOrCreate 30, Call.getOrCreate 10] hseed (by decide)⟩

/-- C3, at a seed that holds the largest `int`: `nextIdx` is the smallest
`int`, below the stored index. -/
theorem stored_index_above_wrapped_watermark :
    ((1, 9223372036854775807) : Int × Int)
        ∈ (Go64.run (Go64.NewIDMapper [(1, 9223372036854775807)]) []).mapping
    ∧ (Go64.run (Go64.NewIDMapper [(1, 9223372036854775807)]) []).nextIdx
        = -9223372036854775808
    ∧ ¬ ((9223372036854775807 : Int)
        < (Go64.run (Go64.NewIDMapper [(1, 9223372036854775807)]) []).nextIdx) :=
  ⟨by decide, by decide, by decide⟩

/-- C3, amended: for every seed and every sequence of method calls on
`NewIDMapper(seed)`, as long as the watermark counted without overflow does not
exceed the largest `int`, every index stored in the mapping is strictly below
`nextIdx`. -/
theorem indices_below_watermark_in_range (seed : GoMap) (cs : List Call)
    (hfit : watermarkExact seed cs ≤ Strconv.maxInt) :
    ∀ p ∈ (Go64.run (Go64.NewIDMapper seed) cs).mapping,
      p.2 < (Go64.run (Go64.NewIDMapper seed) cs).nextIdx := by
  rw [go64_run_new_eq seed cs hfit]
  exact indices_below_watermark seed cs

theorem indices_below_watermark_in_range_witness :
    watermarkExact [(10, 0), (20, 1)] [Call.getOrCreate 30, Call.count] ≤ Strconv.maxInt
    ∧ ((30, 2) : Int × Int) ∈ (Go64.run (Go64.NewIDMapper [(10, 0), (20, 1)])
        [Call.getOrCreate 30, Call.count]).mapping
    ∧ (2 : Int) < (Go64.run (Go64.NewIDMapper [(10, 0), (20, 1)])
        [Call.getOrCreate 30, Call.count]).nextIdx :=
  ⟨by decide, by decide,
   indices_below_watermark_in_range [(10, 0), (20, 1)] [Call.getOrCreate 30, Call.count]
     (by decide) (30, 2) (by decide)⟩

/-- C4, at a non-negative seed that holds the largest `int`: `nextIdx` is the
smallest `int`, not one plus the largest index. -/
theorem newIDMapper_wraps_at_largest_int :
    (∀ p ∈ ([(1, 9223372036854775807)] : GoMap), 0 ≤ p.2)
    ∧ (Go64.NewIDMapper [(1, 9223372036854775807)]).nextIdx = -9223372036854775808
    ∧ (Go64.NewIDMapper [(1, 9223372036854775807)]).nextIdx ≠ 9223372036854775807 + 1 :=
  ⟨by decide, by decide, by decide⟩

/-- C4, amended: for a seed whose indices are all `>= 0`, `NewIDMapper(seed)`
sets `nextIdx` to `0` when the seed is empty and otherwise to one plus the
largest index of the seed, computed in 64 bits: that is one plus the largest
index when this index is below the largest `int`, and the smallest `int` when
it is the largest `int`.  The `changed` flag starts `false` (and the mapping is
the seed). -/
theorem newIDMapper_watermark_is_max_plus_one_in_range (seed : GoMap)
    (hnonneg : ∀ p ∈ seed, 0 ≤ p.2) :
    (seed = [] → (Go64.NewIDMapper seed).nextIdx = 0)
    ∧ (seed ≠ [] → ∃ p ∈ seed, (∀ q ∈ seed, q.2 ≤ p.2)
        ∧ (Go64.NewIDMapper seed).nextIdx = Go64.wrap (p.2 + 1)
        ∧ (p.2 < Strconv.maxInt → (Go64.NewIDMapper seed).nextIdx = p.2 + 1)
        ∧ (p.2 = Strconv.maxInt → (Go64.NewIDMapper seed).nextIdx = Strconv.minInt))
    ∧ (Go64.NewIDMapper seed).changed = false
    ∧ (Go64.NewIDMapper seed).mapping = seed := by
  obtain ⟨_, hmax, _, _⟩ := newIDMapper_watermark_is_max_plus_one seed hnonneg
  refine ⟨?_, ?_, rfl, rfl⟩
  · intro he
    subst he
    decide
  · intro hne
    obtain ⟨p, hp, hle, hnext⟩ := hmax hne
    have hmaxeq : maxIdxLoop seed (-1) = p.2 := by
      have : (NewIDMapper seed).nextIdx = maxIdxLoop seed (-1) + 1 := rfl
      rw [this] at hnext
      omega
    have hw : (Go64.NewIDMapper seed).nextIdx = Go64.wrap (p.2 + 1) := by
      simp only [Go64.NewIDMapper, hmaxeq]
    refine ⟨p, hp, hle, hw, ?_, ?_⟩
    · intro hlt
      rw [hw]
      apply go64_wrap_of_inRange
      have h0 := hnonneg p hp
      simp only [Strconv.maxInt] at hlt
      simp only [Strconv.InRange, Strconv.minInt, Strconv.maxInt]
      omega
    · intro heq
      rw [hw, heq]
      decide

theorem newIDMapper_watermark_is_max_plus_one_in_range_witness :
    (∀ p ∈ ([(10, 2), (20, 0), (30, 1)] : GoMap), 0 ≤ p.2)
    ∧ (Go64.NewIDMapper [(10, 2), (20, 0), (30, 1)]).changed = false
    ∧ (Go64.NewIDMapper [(10, 2), (20, 0), (30, 1)]).nextIdx = 3 :=
  ⟨by decide,
   (newIDMapper_watermark_is_max_plus_one_in_range [(10, 2), (20, 0), (30, 1)]
      (by decide)).2.2.1,
   by decide⟩

end Mappers

namespace Mappers

theorem go64_NewIDMapper_nextIdx (m : GoMap) :
    (Go64.NewIDMapper m).nextIdx = Go64.wrap (maxIdxLoop m (-1) + 1) := rfl

/-- C11, at a mapper whose watermark has wrapped: from the seed `{1: largest
int}` and one allocation, every id and index is an `int`, the table is written
and read back entry for entry, yet `NewIDMapper` over the reloaded map has
`nextIdx` equal to the smallest `int` while the saved mapper has the smallest
`int` plus one. -/
theorem reloaded_watermark_differs_after_wrap :
    GoMap.WF [(1, 9223372036854775807)]
    ∧ (Go64.run (Go64.NewIDMapper [(1, 9223372036854775807)]) [Call.getOrCreate 2]).mapping
        = [(1, 9223372036854775807), (2, -9223372036854775808)]
    ∧ LoadItemMap (SaveItemMap sortSliceByIdx
        (Go64.run (Go64.NewIDMapper [(1, 9223372036854775807)])
          [Call.getOrCreate 2]).GetMapping)
        = [(2, -9223372036854775808), (1, 9223372036854775807)]
    ∧ (Go64.NewIDMapper (LoadItemMap (SaveItemMap sortSliceByIdx
        (Go64.run (Go64.NewIDMapper [(1, 9223372036854775807)])
          [Call.getOrCreate 2]).GetMapping))).nextIdx = -9223372036854775808
    ∧ (Go64.run (Go64.NewIDMapper [(1, 9223372036854775807)]) [Call.getOrCreate 2]).nextIdx
        = -9223372036854775807
    ∧ (Go64.NewIDMapper (LoadItemMap (SaveItemMap sortSliceByIdx
        (Go64.run (Go64.NewIDMapper [(1, 9223372036854775807)])
          [Call.getOrCreate 2]).GetMapping))).nextIdx
        ≠ (Go64.run (Go64.NewIDMapper [(1, 9223372036854775807)])
            [Call.getOrCreate 2]).nextIdx :=
  ⟨by simp [GoMap.WF, GoMap.keys], by decide, by decide, by decide, by decide, by decide⟩

/-- C11, amended: for a mapper reached from `NewIDMapper(seed)` (seed a
well-formed map, all ids and indices of the mapping Go `int` values), saving
`GetMapping()` with `SaveItemMap` or `SaveUserMap` and reading the table back
(header skipped, the two decimal fields of each row parsed as integers) yields
the same map: the same entries, hence the same index for every id.
`NewIDMapper` over the reloaded map has the `nextIdx` of `NewIDMapper` over the
saved map; it has the `nextIdx` of the mapper whose map was saved as long as
the watermark counted without overflow does not exceed the largest `int`. -/
theorem save_then_load_round_trip_in_range (srt : List (Int × Int) → List (Int × Int))
    (hsrt : SortsByIdx srt) (seed : GoMap) (cs : List Call) (hwf : seed.WF)
    (hrange : ∀ p ∈ (Go64.run (Go64.NewIDMapper seed) cs).mapping,
      Strconv.InRange p.1 ∧ Strconv.InRange p.2) :
    (LoadItemMap (SaveItemMap srt (Go64.run (Go64.NewIDMapper seed) cs).GetMapping)).Perm
        (Go64.run (Go64.NewIDMapper seed) cs).mapping
    ∧ (∀ id,
        (LoadItemMap (SaveItemMap srt (Go64.run (Go64.NewIDMapper seed) cs).GetMapping)).lookup id
          = (Go64.run (Go64.NewIDMapper seed) cs).mapping.lookup id)
    ∧ LoadUserMap (SaveUserMap srt (Go64.run (Go64.NewIDMapper seed) cs).GetMapping)
        = LoadItemMap (SaveItemMap srt (Go64.run (Go64.NewIDMapper seed) cs).GetMapping)
    ∧ (Go64.NewIDMapper
          (LoadItemMap (SaveItemMap srt (Go64.run (Go64.NewIDMapper seed) cs).GetMapping))).nextIdx
        = (Go64.NewIDMapper (Go64.run (Go64.NewIDMapper seed) cs).mapping).nextIdx
    ∧ (watermarkExact seed cs ≤ Strconv.maxInt →
        (Go64.NewIDMapper
          (LoadItemMap (SaveItemMap srt (Go64.run (Go64.NewIDMapper seed) cs).GetMapping))).nextIdx
        = (Go64.run (Go64.NewIDMapper seed) cs).nextIdx) := by
  have hwf' : (Go64.run (Go64.NewIDMapper seed) cs).mapping.WF := go64_wf_run _ cs hwf
  have hget := GetMapping_eq_mapping _ hwf'
  obtain ⟨hitem, huser⟩ := load_save_eq_sorted srt hsrt _ hwf' hrange
  have hperm := (hsrt (Go64.run (Go64.NewIDMapper seed) cs).mapping).1
  have hmax : maxIdxLoop (srt (Go64.run (Go64.NewIDMapper seed) cs).mapping) (-1)
      = maxIdxLoop (Go64.run (Go64.NewIDMapper seed) cs).mapping (-1) :=
    maxIdxLoop_perm _ _ hperm (-1)
  have hnew : (Go64.NewIDMapper (srt (Go64.run (Go64.NewIDMapper seed) cs).mapping)).nextIdx
      = (Go64.NewIDMapper (Go64.run (Go64.NewIDMapper seed) cs).mapping).nextIdx := by
    rw [go64_NewIDMapper_nextIdx, go64_NewIDMapper_nextIdx, hmax]
  rw [hget, hitem, huser]
  refine ⟨hperm, fun id => lookup_perm _ _ hperm hwf' id, rfl, hnew, ?_⟩
  intro hfit
  rw [hnew]
  have hs := go64_run_new_eq seed cs hfit
  have hw := watermark_run (NewIDMapper seed) cs rfl
  have h0 := watermarkExact_nonneg seed cs
  rw [hs]
  have hr : Strconv.InRange (maxIdxLoop (run (NewIDMapper seed) cs).mapping (-1) + 1) := by
    rw [← hw]
    simp only [watermarkExact, Strconv.maxInt] at h0 hfit
    simp only [Strconv.InRange, Strconv.minInt, Strconv.maxInt]
    omega
  rw [go64_NewIDMapper_nextIdx, go64_wrap_of_inRange _ hr]
  exact hw.symm

theorem save_then_load_round_trip_in_range_witness :
    SortsByIdx sortSliceByIdx
    ∧ GoMap.WF [(10, 1), (20, 0)]
    ∧ watermarkExact [(10, 1), (20, 0)] [Call.getOrCreate 30] ≤ Strconv.maxInt
    ∧ SaveItemMap sortSliceByIdx
        (Go64.run (Go64.NewIDMapper [(10, 1), (20, 0)]) [Call.getOrCreate 30]).GetMapping
        = [["movieId", "iIdx"], ["20", "0"], ["10", "1"], ["30", "2"]]
    ∧ LoadItemMap [["movieId", "iIdx"], ["20", "0"], ["10", "1"], ["30", "2"]]
        = [(20, 0), (10, 1), (30, 2)]
    ∧ (Go64.NewIDMapper (LoadItemMap (SaveItemMap sortSliceByIdx
        (Go64.run (Go64.NewIDMapper [(10, 1), (20, 0)])
          [Call.getOrCreate 30]).GetMapping))).nextIdx
        = (Go64.run (Go64.NewIDMapper [(10, 1), (20, 0)]) [Call.getOrCreate 30]).nextIdx :=
  have hwf : GoMap.WF [(10, 1), (20, 0)] := by simp [GoMap.WF, GoMap.keys]
  have hmap : (Go64.run (Go64.NewIDMapper [(10, 1), (20, 0)]) [Call.getOrCreate 30]).mapping
      = [(10, 1), (20, 0), (30, 2)] := by decide
  have hrange : ∀ p ∈ (Go64.run (Go64.NewIDMapper [(10, 1), (20, 0)])
      [Call.getOrCreate 30]).mapping, Strconv.InRange p.1 ∧ Strconv.InRange p.2 := by
    rw [hmap]
    intro p hp
    simp only [List.mem_cons, List.mem_singleton, List.not_mem_nil, or_false] at hp
    rcases hp with e | e | e <;> subst e <;>
      simp [Strconv.InRange, Strconv.minInt, Strconv.maxInt]
  ⟨sortsByIdx_sortSliceByIdx, hwf, by decide, by decide, by decide,
   (save_then_load_round_trip_in_range sortSliceByIdx sortsByIdx_sortSliceByIdx
      [(10, 1), (20, 0)] [Call.getOrCreate 30] hwf hrange).2.2.2.2 (by decide)⟩

end Mappers
